import Mathlib

/-!
# Verification of the D-LAN download-orchestration core

Shallow embedding of `src/application/Core/DownloadManager/priv/DownloadManager.cpp`,
`src/application/Core/FileManager/priv/Cache/Directory.cpp` and
`src/application/GUI/Downloads/WidgetDownloads.cpp`.

The C++ manager mutates a `QList<Download*>` in place through Qt slots; we model it
as a pure state (`MState`) and render each slot as a function on that state.  Code
of the repository that is not part of the three source files (the `FileDownload`,
`DirDownload` and `ChunkDownload` classes, `Constants.h`) is modelled from the
specification and flagged as such in the doc comments.
-/

namespace DM

/-- `Protos::Common::Entry_Type`: a download entry is either a file or a directory. -/
inductive EntryType
  | FILE
  | DIR
deriving DecidableEq, Repr

/-- The fields of a `Protos::Common::Entry` the manager reads.  Only
`(type, path, name, size)` take part in the duplicate key
(`DownloadManager::isEntryAlreadyQueued`); `isEmpty` stands for the remaining
payload so that key equality is weaker than record equality. -/
structure Entry where
  type : EntryType
  path : String
  name : String
  size : Nat
  isEmpty : Bool
deriving DecidableEq, Repr

/-- The `(type, path, name, size)` comparison from
`DownloadManager::isEntryAlreadyQueued` (lines 315-320). -/
def sameKey (a b : Entry) : Bool :=
  decide (a.type = b.type) && decide (a.path = b.path) &&
  decide (a.name = b.name) && decide (a.size = b.size)

/-- `ChunkDownload` status.  Modelled from the spec: `{IDLE, DOWNLOADING, COMPLETE,
FAILED}` (§3); the class itself is not under `src/`. -/
inductive ChunkStatus
  | IDLE
  | DOWNLOADING
  | COMPLETE
  | FAILED
deriving DecidableEq, Repr

/-- The part of a `FileDownload` the manager observes.  Modelled from the spec:
the class is not under `src/`.  `status` is the numeric `Status` value returned by
`getStatus()`; the only numeric fact the manager uses is the soft-error threshold
`0x20` (`DownloadManager::scanTheQueue`, line 227).  `chunks` are the statuses of
the owned `ChunkDownload`s, created `IDLE` as hashes arrive (§4.C). -/
structure FileDownloadData where
  status : Nat
  chunks : List ChunkStatus
deriving DecidableEq, Repr

/-- Variant payload of a queued `Download`: a `FileDownload` or a `DirDownload`.
The `retrieving` flag of a `DirDownload` is modelled from the spec (§3, §4.D). -/
inductive DownloadData
  | fileD (fd : FileDownloadData)
  | dirD (retrieving : Bool)
deriving DecidableEq, Repr

/-- A queued `Download`: the originating entry, the source peer id (`Common::Hash`,
modelled as `Nat`), the persisted `complete` flag and the variant payload. -/
structure Download where
  entry : Entry
  peerSource : Nat
  complete : Bool
  dat : DownloadData
deriving DecidableEq, Repr

/-- The manager state: the ordered queue `downloads`, the `retrievingEntries`
flag, the global counter `numberOfDownload` (a C++ `int`, hence `Int`) and
whether the rescan timer has been started. -/
structure MState where
  downloads : List Download
  retrievingEntries : Bool
  numberOfDownload : Int
  timerArmed : Bool
deriving DecidableEq, Repr

/-- State after the constructor `DownloadManager::DownloadManager`: empty queue,
`numberOfDownload(0)`, `retrievingEntries(false)`, timer not yet started. -/
def initState : MState :=
  { downloads := [], retrievingEntries := false, numberOfDownload := 0, timerArmed := false }

/-- The static configuration the constructor gives the rescan timer
(lines 24-25): `setInterval(RESCAN_QUEUE_PERIOD_IF_ERROR)`, `setSingleShot(true)`.
The numeric period lives in `priv/Constants.h` (not under `src/`), so it is a
parameter. -/
structure TimerConfig where
  interval : Nat
  singleShot : Bool
deriving DecidableEq, Repr

/-- `DownloadManager::DownloadManager` timer setup, parameterised by the value of
`RESCAN_QUEUE_PERIOD_IF_ERROR`. -/
def initTimer (rescanQueuePeriodIfError : Nat) : TimerConfig :=
  { interval := rescanQueuePeriodIfError, singleShot := true }

/-- `DownloadManager::isEntryAlreadyQueued` (lines 309-324): scan the queue for a
download whose entry matches on `(type, path, name, size)`. -/
def isEntryAlreadyQueued (downloads : List Download) (entry : Entry) : Bool :=
  downloads.any fun d => sameKey d.entry entry

/-- The `Download` object built by `DownloadManager::addDownload` (lines 73-94):
a `DirDownload` for a DIR entry (the `complete` argument is not passed to its
constructor, line 79), a `FileDownload` for a FILE entry.  Modelled from the
spec for the constructors not under `src/`: a fresh `FileDownload` owns no
`ChunkDownload` yet (chunks materialise as hashes arrive, §4.C) and starts in
the QUEUED status class, below the soft-error threshold; QUEUED is rendered
as `0`. -/
def mkDownload (entry : Entry) (peerSource : Nat) (complete : Bool) : Download :=
  match entry.type with
  | .DIR => { entry := entry, peerSource := peerSource, complete := false, dat := .dirD false }
  | .FILE => { entry := entry, peerSource := peerSource, complete := complete,
               dat := .fileD { status := 0, chunks := [] } }

/-- Insert at a `QMutableListIterator` position: the new element goes in front of
the iterator's remaining suffix. -/
def insertAt (l : List α) (n : Nat) (a : α) : List α :=
  l.take n ++ a :: l.drop n

/-- `QMutableListIterator::remove` after `findNext`: drop the element at the
iterator position. -/
def removeAt (l : List α) (n : Nat) : List α :=
  l.take n ++ l.drop (n + 1)

/-- Helper of `DownloadManager::scanTheQueueToRetrieveEntries` (lines 197-206):
walk the queue, call `retrieveEntries` on the first `DirDownload` found and
return the updated queue; `none` when the queue holds no `DirDownload`.
`retrieveEntries` is modelled from the spec: it raises the `DirDownload`'s
`retrieving` flag (§4.D). -/
def setFirstDirRetrieving : List Download → Option (List Download)
  | [] => none
  | d :: rest =>
    match d.dat with
    | .dirD _ => some ({ d with dat := .dirD true } :: rest)
    | .fileD _ => (setFirstDirRetrieving rest).map (d :: ·)

/-- `DownloadManager::scanTheQueueToRetrieveEntries` (lines 190-207): return
immediately when `retrievingEntries` is set, otherwise trigger the first
`DirDownload` and set the flag. -/
def scanTheQueueToRetrieveEntries (s : MState) : MState :=
  if s.retrievingEntries then s
  else
    match setFirstDirRetrieving s.downloads with
    | none => s
    | some ds => { s with downloads := ds, retrievingEntries := true }

/-- `DownloadManager::addDownload(entry, peerSource, complete, iterator)`
(lines 64-98), the iterator rendered as the position `pos`.  Returns the new
state and whether an element was inserted (so a caller that keeps iterating can
advance its position).  A duplicate key returns the state unchanged (lines
67-71).  A DIR insertion triggers `scanTheQueueToRetrieveEntries` (line 83);
`fileDownload->start()` (line 92) is modelled from the spec as launching hash
acquisition only, which does not touch the manager state. -/
def addDownloadAtS (s : MState) (pos : Nat) (entry : Entry) (peerSource : Nat)
    (complete : Bool) : MState × Bool :=
  if isEntryAlreadyQueued s.downloads entry then (s, false)
  else
    let s' := { s with downloads := insertAt s.downloads pos (mkDownload entry peerSource complete) }
    match entry.type with
    | .DIR => (scanTheQueueToRetrieveEntries s', true)
    | .FILE => (s', true)

/-- `DownloadManager::addDownload(entry, peerSource, complete)` (lines 54-59):
insert at the back. -/
def addDownloadTailS (s : MState) (entry : Entry) (peerSource : Nat) (complete : Bool) : MState :=
  (addDownloadAtS s s.downloads.length entry peerSource complete).1

/-- The replay loop of `DownloadManager::newEntries` (lines 155-156): each child
entry is added at the iterator position with `complete = false` and the peer
source of the resolved `DirDownload`. -/
def replayChildrenS (s : MState) (pos : Nat) (peer : Nat) : List Entry → MState
  | [] => s
  | c :: rest =>
    let (s', inserted) := addDownloadAtS s pos c peer false
    replayChildrenS s' (if inserted then pos + 1 else pos) peer rest

/-- `DownloadManager::newEntries` (lines 145-161): clear `retrievingEntries`,
locate the sender `DirDownload` (given here by its queue position `j`; when the
position does not hold a `DirDownload` the sender is no longer queued and the
slot returns after clearing the flag, line 152), remove it, insert the children
at its position and re-enter `scanTheQueueToRetrieveEntries`. -/
def newEntriesS (s : MState) (j : Nat) (children : List Entry) : MState :=
  let s0 := { s with retrievingEntries := false }
  match s.downloads[j]? with
  | some d =>
    match d.dat with
    | .dirD _ =>
      let s1 := { s0 with downloads := removeAt s0.downloads j }
      scanTheQueueToRetrieveEntries (replayChildrenS s1 j d.peerSource children)
    | .fileD _ => s0
  | none => s0

/-- The children surviving the duplicate check of the `newEntries` replay loop:
each child is passed to `addDownload`, which drops it exactly when its
`(type, path, name, size)` key is found in the queue at that moment
(lines 66-71) — the queue then holding the previously surviving siblings
besides the rest of the queue.  `queued` is the key-relevant view of the
queue: the entries of its downloads. -/
def siftChildren (queued : List Entry) : List Entry → List Entry
  | [] => []
  | c :: rest =>
    if queued.any fun e => sameKey e c then siftChildren queued rest
    else c :: siftChildren (queued ++ [c]) rest

/-- The same check phrased against every earlier sibling, dropped ones
included: a child is dropped exactly when its key is already queued or equal
to an earlier sibling's key.  `C3_dir_resolution_splice` proves this coincides
with `siftChildren` (key equality is transitive, so a match with a dropped
sibling is a match with whatever that sibling was dropped for). -/
def siftChildrenAll (queued : List Entry) : List Entry → List Entry
  | [] => []
  | c :: rest =>
    if queued.any fun e => sameKey e c then siftChildrenAll (queued ++ [c]) rest
    else c :: siftChildrenAll (queued ++ [c]) rest

/-- `ChunkDownload::startDownloading` as observed by the scan loop.  Modelled
from the spec: the class is not under `src/`.  `pick` abstracts
`getAChunkToDownload` together with the peer reservation: `some i` means the
file yielded its chunk `i` and the reservation succeeded, in which case the
chunk (which must be `IDLE`) transitions to `DOWNLOADING` (§4.B steps 1-2);
any other outcome leaves the file unchanged and reports failure. -/
def tryStart (fd : FileDownloadData) : Option Nat → FileDownloadData × Bool
  | none => (fd, false)
  | some i =>
    match fd.chunks[i]? with
    | some .IDLE => ({ fd with chunks := fd.chunks.set i .DOWNLOADING }, true)
    | _ => (fd, false)

/-- Result of one run of the `scanTheQueue` loop: the updated queue, the final
counter, whether a soft-error status (`>= 0x20`) was seen on a visited
`FileDownload` (which starts the rescan timer), and how many times the counter
was incremented. -/
structure ScanOut where
  downloads : List Download
  counter : Int
  soft : Bool
  nStarts : Nat
deriving DecidableEq, Repr

/-- The loop of `DownloadManager::scanTheQueue` (lines 219-244): walk the queue
while the counter is below `NUMBER_OF_DOWNLOADER`; skip non-file downloads;
start the rescan timer when a visited file's status is `>= 0x20`; on a
successful `startDownloading` increment the counter.  The environment choices
(`getAChunkToDownload` and peer availability) are an oracle, one entry per
visited `FileDownload`. -/
def scanGo (N : Nat) : List Download → List (Option Nat) → Int → ScanOut
  | [], _, c => ⟨[], c, false, 0⟩
  | d :: rest, oracle, c =>
    if c < (N : Int) then
      match d.dat with
      | .dirD _ =>
        let r := scanGo N rest oracle c
        ⟨d :: r.downloads, r.counter, r.soft, r.nStarts⟩
      | .fileD fd =>
        let soft := decide (0x20 ≤ fd.status)
        let (fd', started) := tryStart fd (oracle.headD none)
        let c2 := if started then c + 1 else c
        let r := scanGo N rest oracle.tail c2
        ⟨{ d with dat := .fileD fd' } :: r.downloads, r.counter, soft || r.soft,
          (if started then 1 else 0) + r.nStarts⟩
    else ⟨d :: rest, c, false, 0⟩

/-- `DownloadManager::scanTheQueue` (lines 209-245) on the manager state:
snapshot the counter, run the loop, store back counter and queue; `timer.start()`
leaves an already-armed timer armed. -/
def scanTheQueueS (s : MState) (N : Nat) (oracle : List (Option Nat)) : MState :=
  let r := scanGo N s.downloads oracle s.numberOfDownload
  { s with downloads := r.downloads, numberOfDownload := r.counter,
           timerArmed := s.timerArmed || r.soft }

/-- `DownloadManager::chunkDownloadFinished` (lines 250-257) together with the
chunk's own terminal transition, which is modelled from the spec: the emitting
`ChunkDownload` has already left `DOWNLOADING` for `COMPLETE` (hash verified) or
`FAILED` (§4.B steps 5-6), and `downloadFinished` only ever fires for a chunk
the manager started (the signal is connected at start and disconnected here).
The download is `j`, the chunk `k`; a position that does not hold a
`DOWNLOADING` chunk is a no-op. -/
def chunkFinishedS (s : MState) (j k : Nat) (success : Bool) : MState :=
  match s.downloads[j]? with
  | some d =>
    match d.dat with
    | .fileD fd =>
      match fd.chunks[k]? with
      | some .DOWNLOADING =>
        let fd' := { fd with chunks := fd.chunks.set k (if success then .COMPLETE else .FAILED) }
        { s with downloads := s.downloads.set j { d with dat := .fileD fd' },
                 numberOfDownload := s.numberOfDownload - 1 }
      | _ => s
    | .dirD _ => s
  | none => s

/-- Whether the chunk-finished guard holds (used for the increment/decrement
accounting of the counter-conservation law). -/
def chunkFinGuard (s : MState) (j k : Nat) : Bool :=
  match s.downloads[j]? with
  | some d =>
    match d.dat with
    | .fileD fd =>
      match fd.chunks[k]? with
      | some .DOWNLOADING => true
      | _ => false
    | .dirD _ => false
  | none => false

/-- Does a download own a chunk currently in the `DOWNLOADING` state? -/
def hasDownloadingChunk (d : Download) : Bool :=
  match d.dat with
  | .fileD fd => fd.chunks.any fun c => decide (c = ChunkStatus.DOWNLOADING)
  | .dirD _ => false

/-- `DownloadManager::downloadDeleted` (lines 163-166): remove the download from
the queue.  Modelled from the spec for the guard: destruction of a `Download`
cancels its in-flight chunk work first, each cancelled chunk leaving
`DOWNLOADING` and emitting `downloadFinished` (§4.B step 6, §5), so by the time
the `deleted` signal reaches the manager the download owns no `DOWNLOADING`
chunk. -/
def downloadDeletedS (s : MState) (j : Nat) : MState :=
  match s.downloads[j]? with
  | some d =>
    if hasDownloadingChunk d then s
    else { s with downloads := removeAt s.downloads j }
  | none => s

/-- Environment transition, modelled from the spec: the `FileDownload` state
machine (§4.C) moves its own `status`; the manager only ever reads it. -/
def setStatusS (s : MState) (j : Nat) (st : Nat) : MState :=
  match s.downloads[j]? with
  | some d =>
    match d.dat with
    | .fileD fd =>
      { s with downloads := s.downloads.set j { d with dat := .fileD { fd with status := st } } }
    | .dirD _ => s
  | none => s

/-- Environment transition, modelled from the spec: a received hash creates a
`ChunkDownload` in `IDLE` (§4.C). -/
def addChunkS (s : MState) (j : Nat) : MState :=
  match s.downloads[j]? with
  | some d =>
    match d.dat with
    | .fileD fd =>
      { s with downloads :=
          s.downloads.set j { d with dat := .fileD { fd with chunks := fd.chunks ++ [.IDLE] } } }
    | .dirD _ => s
  | none => s

/-- Environment transition, modelled from the spec: a failed chunk returns to
`IDLE` after a cool-down (§4.B failure semantics). -/
def chunkRetryS (s : MState) (j k : Nat) : MState :=
  match s.downloads[j]? with
  | some d =>
    match d.dat with
    | .fileD fd =>
      match fd.chunks[k]? with
      | some .FAILED =>
        { s with downloads :=
            s.downloads.set j { d with dat := .fileD { fd with chunks := fd.chunks.set k .IDLE } } }
      | _ => s
    | .dirD _ => s
  | none => s

/-- The manager's externally triggered transitions: the public `addDownload`,
the `newEntries` slot (delivered by a `DirDownload` it set retrieving, hence the
guard in `applyStep`), the scheduling scan (timer timeout or
`peerNoLongerDownloadingChunk`), a chunk finishing, and the environment moves
of the owned state machines. -/
inductive Step
  | addTail (e : Entry) (p : Nat) (c : Bool)
  | newEnts (j : Nat) (children : List Entry)
  | scan (oracle : List (Option Nat))
  | chunkFin (j k : Nat) (success : Bool)
  | chunkRetry (j k : Nat)
  | setStatus (j st : Nat)
  | addChunk (j : Nat)
  | del (j : Nat)

/-- One atomic transition.  `newEnts` is guarded: only a `DirDownload` whose
`retrieving` flag is up can deliver `newEntries` (it is the one
`retrieveEntries` was called on, §4.D). -/
def applyStep (N : Nat) (s : MState) : Step → MState
  | .addTail e p c => addDownloadTailS s e p c
  | .newEnts j children =>
    match s.downloads[j]? with
    | some d =>
      match d.dat with
      | .dirD true => newEntriesS s j children
      | _ => s
    | none => s
  | .scan oracle => scanTheQueueS s N oracle
  | .chunkFin j k success => chunkFinishedS s j k success
  | .chunkRetry j k => chunkRetryS s j k
  | .setStatus j st => setStatusS s j st
  | .addChunk j => addChunkS s j
  | .del j => downloadDeletedS s j

/-- Run a list of transitions. -/
def runTrace (N : Nat) (s : MState) : List Step → MState
  | [] => s
  | st :: tr => runTrace N (applyStep N s st) tr

/-- Number of `DOWNLOADING` statuses in a chunk list. -/
def countDownloadingChunks : List ChunkStatus → Nat
  | [] => 0
  | c :: rest => (if c = ChunkStatus.DOWNLOADING then 1 else 0) + countDownloadingChunks rest

/-- Number of `DOWNLOADING` chunks owned by one download. -/
def countDownloadingD (d : Download) : Nat :=
  match d.dat with
  | .fileD fd => countDownloadingChunks fd.chunks
  | .dirD _ => 0

/-- Number of `ChunkDownload`s in the `DOWNLOADING` state across the queue. -/
def countDownloading : List Download → Nat
  | [] => 0
  | d :: rest => countDownloadingD d + countDownloading rest

/-- Number of `retrieving` units contributed by one download: 1 for a
`DirDownload` whose `retrieving` flag is up, 0 otherwise. -/
def countRetrievingD (d : Download) : Nat :=
  match d.dat with
  | .dirD true => 1
  | _ => 0

/-- Number of `DirDownload`s whose `retrieving` flag is up. -/
def countRetrieving : List Download → Nat
  | [] => 0
  | d :: rest => countRetrievingD d + countRetrieving rest

/-- Increments of the global counter performed by one step (only the scan loop
increments, once per successful `startDownloading`, lines 238-243). -/
def stepIncs (N : Nat) (s : MState) : Step → Nat
  | .scan oracle => (scanGo N s.downloads oracle s.numberOfDownload).nStarts
  | _ => 0

/-- Decrements of the global counter performed by one step (only
`chunkDownloadFinished` decrements, line 256). -/
def stepDecs (_N : Nat) (s : MState) : Step → Nat
  | .chunkFin j k _ => if chunkFinGuard s j k then 1 else 0
  | _ => 0

/-- Total increments along a trace. -/
def traceIncs (N : Nat) (s : MState) : List Step → Nat
  | [] => 0
  | st :: tr => stepIncs N s st + traceIncs N (applyStep N s st) tr

/-- Total decrements along a trace. -/
def traceDecs (N : Nat) (s : MState) : List Step → Nat
  | [] => 0
  | st :: tr => stepDecs N s st + traceDecs N (applyStep N s st) tr

/-- The `(entry, peer-source id, complete)` triple a queued download contributes
to observations (`saveQueueToFile` persists exactly these, via
`Download::populateEntry`). -/
def toTriple (d : Download) : Entry × Nat × Bool :=
  (d.entry, d.peerSource, d.complete)

/-- Observation of the queue as its ordered `(entry, peer, complete)` triples. -/
def projQ (s : MState) : List (Entry × Nat × Bool) :=
  s.downloads.map toTriple

/-! ## Persistence (`loadQueueFromFile` / `saveQueueToFile`) -/

/-- One `Protos::Queue::Queue::Entry` of the persisted record: an entry, the
source peer id and the `complete` flag. -/
structure SavedEntry where
  entry : Entry
  peerId : Nat
  complete : Bool
deriving DecidableEq, Repr

/-- The persisted `Protos::Queue::Queue` record: an integer version and the
ordered saved entries. -/
structure QueueRecord where
  version : Int
  entries : List SavedEntry
deriving DecidableEq, Repr

/-- Outcome of `Common::PersistentData::getValue(Common::FILE_QUEUE, ...)` as
`loadQueueFromFile` observes it: a deserialised record, the distinguished
`UnknownValueException` (record missing), or any other exception. -/
inductive FetchResult
  | ok (record : QueueRecord)
  | unknownValue
  | otherExc
deriving DecidableEq, Repr

/-- Result of `loadQueueFromFile`: the manager state afterwards and whether
`PersistentData::rmValue(FILE_QUEUE)` was called. -/
structure LoadOut where
  state : MState
  removedRecord : Bool
deriving DecidableEq, Repr

/-- `DownloadManager::loadQueueFromFile` (lines 259-287), parameterised by
`FILE_QUEUE_VERSION` (a constant of `priv/Constants.h`, not under `src/`).
A version mismatch deletes the record and returns (lines 266-271); an exception
is caught, logged and swallowed (lines 279-286); otherwise every saved entry is
replayed through `addDownload(entry, peer, complete)` in order (lines 273-277). -/
def loadQueueFromFileS (s : MState) (V : Int) (fetched : FetchResult) : LoadOut :=
  match fetched with
  | .ok record =>
    if record.version ≠ V then { state := s, removedRecord := true }
    else
      { state := record.entries.foldl
          (fun st en => addDownloadTailS st en.entry en.peerId en.complete) s,
        removedRecord := false }
  | .unknownValue => { state := s, removedRecord := false }
  | .otherExc => { state := s, removedRecord := false }

/-- `Download::populateEntry` as `saveQueueToFile` uses it.  Modelled from the
spec: the subclasses are not under `src/`; the persisted record holds the
`{entry, peer_id, complete}` triple of each download (§6, persisted file
schema). -/
def populateEntry (d : Download) : SavedEntry :=
  { entry := d.entry, peerId := d.peerSource, complete := d.complete }

/-- `DownloadManager::saveQueueToFile` (lines 289-307): a record carrying
`FILE_QUEUE_VERSION` and the queue's downloads in order. -/
def saveQueueToFile (s : MState) (V : Int) : QueueRecord :=
  { version := V, entries := s.downloads.map populateEntry }

end DM

namespace GUIW

/-!
Model of `src/application/GUI/Downloads/WidgetDownloads.cpp`,
`getDownloadIDsToPause` (lines 291-310) and `pauseSelectedEntries`
(lines 254-260).  A selected table row is observed through three model
queries: `getDownloadID(row)`, `isFileComplete(row)`, `isDownloadPaused(row)`.
-/

/-- The data of one selected row, as read from `DownloadsModel`. -/
structure Row where
  id : Nat
  complete : Bool
  paused : Bool
deriving DecidableEq, Repr

/-- State of the accumulating loop of `getDownloadIDsToPause`: the collected
ids and the running `allPaused` flag. -/
def pauseStep (acc : List Nat × Bool) (r : Row) : List Nat × Bool :=
  if r.id ≠ 0 ∧ r.complete = false then
    (acc.1 ++ [r.id], acc.2 && r.paused)
  else acc

/-- `WidgetDownloads::getDownloadIDsToPause` (lines 291-310): collect the ids of
the selected rows whose id is non-zero and whose file is not complete;
`allPaused` starts `true` and is cleared by any collected row that is not
paused; the returned boolean is `!allPaused`. -/
def getDownloadIDsToPause (rows : List Row) : List Nat × Bool :=
  let r := rows.foldl pauseStep ([], true)
  (r.1, !r.2)

/-- `WidgetDownloads::pauseSelectedEntries` (lines 254-260): `none` when no core
request is issued, otherwise the `(ids, pause)` arguments of
`coreConnection->pauseDownloads`. -/
def pauseSelectedEntries (rows : List Row) : Option (List Nat × Bool) :=
  let ids := getDownloadIDsToPause rows
  if ids.1.isEmpty then none else some ids

end GUIW

namespace FMCache

/-!
Model of `src/application/Core/FileManager/priv/Cache/Directory.cpp`.

A `Directory` holds a cached `size`, its `files` and its `subDirs`; the parent
chain is rendered by addressing a directory with the list of child indices from
the root, so `operator+=`/`operator-=` (which add to `this` and recurse to
`parent`, lines 339-357) become an adjustment of every node along that path.
`File` is not under `src/`; the fields the directory code reads (`getSize`, an
identity for `QList::contains`/`removeOne` pointer comparisons) are modelled as
a record `{fid, fsize}`, and `File::changeDirectory` (delegated to by
`stealContent`, line 323) is modelled from the spec as re-parenting the file,
moving its size from the old chain to the new one — the adjustment
`stealContent` itself performs explicitly for sub-directories (lines 315-320).
-/

/-- The part of a `File` its directory reads: an identity (pointer) and
`getSize()` (a `qint64`, hence `Int`). -/
structure CFile where
  fid : Nat
  fsize : Int
deriving DecidableEq, Repr

/-- A directory: cached `size`, owned `files`, owned `subDirs`. -/
inductive DirTree
  | node (dsize : Int) (files : List CFile) (subs : List DirTree)

mutual

/-- Sum of the sizes of all files a directory transitively contains. -/
def totalFileSize : DirTree → Int
  | .node _ fs subs => (fs.map CFile.fsize).sum + totalFileSizeList subs

/-- Sum of `totalFileSize` over a list of directories. -/
def totalFileSizeList : List DirTree → Int
  | [] => 0
  | d :: ds => totalFileSize d + totalFileSizeList ds

end

mutual

/-- The aggregation invariant: every directory's cached `size` equals the sum
of the sizes of the files it transitively contains. -/
def goodb : DirTree → Bool
  | .node sz fs subs =>
    decide (sz = (fs.map CFile.fsize).sum + totalFileSizeList subs) && goodbList subs

/-- `goodb` on every directory of a list. -/
def goodbList : List DirTree → Bool
  | [] => true
  | d :: ds => goodb d && goodbList ds

end

/-- The directory at a path of child indices, if the path exists. -/
def getAt? : DirTree → List Nat → Option DirTree
  | t, [] => some t
  | .node _ _ subs, i :: p =>
    match subs[i]? with
    | some c => getAt? c p
    | none => none

/-- `QList<File*>::contains` by file identity. -/
def hasFile (fs : List CFile) (fid : Nat) : Bool :=
  fs.any fun g => decide (g.fid = fid)

/-- First file with the given identity (the one `removeOne` removes). -/
def findFile : List CFile → Nat → Option CFile
  | [], _ => none
  | g :: gs, fid => if g.fid = fid then some g else findFile gs fid

/-- `QList<File*>::removeOne`: remove the first file with the given identity. -/
def removeFirstFile : List CFile → Nat → List CFile
  | [], _ => []
  | g :: gs, fid => if g.fid = fid then gs else g :: removeFirstFile gs fid

/-- `File`'s own size update when it changes size (the directory part is
`Directory::fileSizeChanged`). -/
def setFileSize : List CFile → Nat → Int → List CFile
  | [], _, _ => []
  | g :: gs, fid, ns => if g.fid = fid then { g with fsize := ns } :: gs
                        else g :: setFileSize gs fid ns

/-- The size-and-list update of `Directory::addFile` (lines 281-289) when the
file is not yet present: append the file at the addressed directory and perform
`(*this) += file->getSize()`, which adds the size to the directory and, by
recursion on `parent`, to every directory along the path. -/
def insertFileAt? : DirTree → List Nat → CFile → Option DirTree
  | .node sz fs subs, [], f => some (.node (sz + f.fsize) (fs ++ [f]) subs)
  | .node sz fs subs, i :: p, f =>
    match subs[i]? with
    | some c => (insertFileAt? c p f).map fun c' => DirTree.node (sz + f.fsize) fs (subs.set i c')
    | none => none

/-- `Directory::addFile` (lines 281-289): a file already contained is ignored
(lines 284-285), otherwise it is appended and the sizes adjusted. -/
def addFileOp (t : DirTree) (p : List Nat) (f : CFile) : DirTree :=
  match getAt? t p with
  | some (.node _ fs _) =>
    if hasFile fs f.fid then t
    else (insertFileAt? t p f).getD t
  | none => t

/-- `Directory::fileDeleted` (lines 139-145): `(*this) -= file->getSize()`
(the directory and every ancestor along the path) then `files.removeOne(file)`
at the addressed directory. -/
def fileDeletedAt? : DirTree → List Nat → CFile → Option DirTree
  | .node sz fs subs, [], f => some (.node (sz - f.fsize) (removeFirstFile fs f.fid) subs)
  | .node sz fs subs, i :: p, f =>
    match subs[i]? with
    | some c => (fileDeletedAt? c p f).map fun c' => DirTree.node (sz - f.fsize) fs (subs.set i c')
    | none => none

/-- `Directory::fileSizeChanged(oldSize, newSize)` (lines 291-295), together
with the file's own size update: `(*this) += newSize - oldSize` along the path
and the file's stored size replaced at the addressed directory. -/
def fileSizeChangedAt? : DirTree → List Nat → Nat → Int → Int → Option DirTree
  | .node sz fs subs, [], fid, os, ns =>
    some (.node (sz + (ns - os)) (setFileSize fs fid ns) subs)
  | .node sz fs subs, i :: p, fid, os, ns =>
    match subs[i]? with
    | some c => (fileSizeChangedAt? c p fid os ns).map
        fun c' => DirTree.node (sz + (ns - os)) fs (subs.set i c')
    | none => none

/-- The source side of `Directory::stealContent` (lines 301-327): the stolen
directory loses its `subDirs` and `files` (lines 325-326) and `moved`, the
total size of the stolen content, is subtracted from it and every ancestor —
the sum of the per-sub-directory `(*dir) -= d->getSize()` calls (line 319) and
of the per-file share of `File::changeDirectory` (line 323). -/
def stealClearAt? : DirTree → List Nat → Int → Option DirTree
  | .node sz _ _, [], moved => some (.node (sz - moved) [] [])
  | .node sz fs subs, i :: p, moved =>
    match subs[i]? with
    | some c => (stealClearAt? c p moved).map fun c' => DirTree.node (sz - moved) fs (subs.set i c')
    | none => none

/-- The destination side of `Directory::stealContent`: the stolen `subDirs` and
`files` are appended (lines 312-313) and `moved` is added to the destination
and every ancestor — the sum of the per-sub-directory `(*this) += d->getSize()`
calls (line 318) and of the per-file share of `File::changeDirectory`. -/
def stealAppendAt? : DirTree → List Nat → List CFile → List DirTree → Int → Option DirTree
  | .node sz fs subs, [], mfs, msubs, moved =>
    some (.node (sz + moved) (fs ++ mfs) (subs ++ msubs))
  | .node sz fs subs, i :: p, mfs, msubs, moved =>
    match subs[i]? with
    | some c => (stealAppendAt? c p mfs msubs moved).map
        fun c' => DirTree.node (sz + moved) fs (subs.set i c')
    | none => none

/-- `Directory::stealContent` (lines 301-327) for a destination `dpath` and a
source `spath`: read the source's content, empty the source adjusting its
chain, append to the destination adjusting its chain.  `dir == this` is
rejected by the source (lines 304-308). -/
def stealContentOp? (t : DirTree) (dpath spath : List Nat) : Option DirTree :=
  if dpath = spath then none
  else
    match getAt? t spath with
    | some (.node _ sfs ssubs) =>
      let moved := (sfs.map CFile.fsize).sum + totalFileSizeList ssubs
      match stealClearAt? t spath moved with
      | some t1 => stealAppendAt? t1 dpath sfs ssubs moved
      | none => none
    | none => none

end FMCache

namespace DM

/-- No two queued downloads share the `(type, path, name, size)` key. -/
def distinctKeys (ds : List Download) : Prop :=
  (ds.map Download.entry).Pairwise fun a b => sameKey a b = false

/-- Number of queued downloads whose entry matches the key of `e`. -/
def countKey (ds : List Download) (e : Entry) : Nat :=
  ds.countP fun d => sameKey d.entry e

/-- Queue obtained from a sequence of public `addDownload(entry, peer, complete)`
calls. -/
def applyAddDownloads (s : MState) (reqs : List (Entry × Nat × Bool)) : MState :=
  reqs.foldl (fun st r => addDownloadTailS st r.1 r.2.1 r.2.2) s

/-- Is this download a `DirDownload` (the `dynamic_cast<DirDownload*>` of the
scan loops succeeding)? -/
def isDirDownload (d : Download) : Bool :=
  match d.dat with
  | .dirD _ => true
  | .fileD _ => false

/-- Does the download report a status in the soft-error class
(`getStatus() >= 0x20`, line 227)?  Only a `FileDownload` is examined. -/
def softStatus (d : Download) : Bool :=
  match d.dat with
  | .fileD fd => decide (0x20 ≤ fd.status)
  | .dirD _ => false

/-- The directory-retrieval invariant: at most one `DirDownload` is retrieving,
and none is when the manager's `retrievingEntries` flag is down. -/
def RInv (s : MState) : Prop :=
  countRetrieving s.downloads ≤ 1
  ∧ (s.retrievingEntries = false → countRetrieving s.downloads = 0)

/-- Every queued `DirDownload` carries `complete = false` (its constructor takes
no such flag, line 79). -/
def dirsNotComplete (ds : List Download) : Prop :=
  ∀ d ∈ ds, d.entry.type = EntryType.DIR → d.complete = false

/-- The manager invariant: the global counter equals the number of
`DOWNLOADING` chunks, is bounded by `NUMBER_OF_DOWNLOADER`, and the
directory-retrieval invariant `RInv` holds. -/
def Inv (N : Nat) (s : MState) : Prop :=
  s.numberOfDownload = (countDownloading s.downloads : Int)
  ∧ s.numberOfDownload ≤ (N : Int)
  ∧ RInv s

end DM

/-! ## Theorems -/

namespace GUIW

/-- The rows `getDownloadIDsToPause` collects: non-zero id, file not complete. -/
theorem foldl_pauseStep (rows : List Row) (a : List Nat) (b : Bool) :
    rows.foldl pauseStep (a, b)
      = (a ++ (rows.filter fun r => decide (r.id ≠ 0 ∧ r.complete = false)).map Row.id,
         b && (rows.filter fun r => decide (r.id ≠ 0 ∧ r.complete = false)).all (·.paused)) := by
  induction rows generalizing a b with
  | nil => simp
  | cons r rest ih =>
    by_cases h : r.id ≠ 0 ∧ r.complete = false
    · simp [pauseStep, List.foldl_cons, h, ih, Bool.and_assoc]
    · simp [pauseStep, List.foldl_cons, h, ih]

/-- C10: `getDownloadIDsToPause` returns exactly the download ids of the
selected rows whose id is non-zero and whose file is not complete; its boolean
is true iff at least one of those downloads is not currently paused; and
`pauseSelectedEntries` issues no core request exactly when that list is
empty. -/
theorem C10_gui_pause_selection (rows : List Row) :
    (getDownloadIDsToPause rows).1
        = (rows.filter fun r => decide (r.id ≠ 0 ∧ r.complete = false)).map Row.id
  ∧ ((getDownloadIDsToPause rows).2 = true ↔
        ∃ r ∈ rows, r.id ≠ 0 ∧ r.complete = false ∧ r.paused = false)
  ∧ (pauseSelectedEntries rows = none ↔
        (rows.filter fun r => decide (r.id ≠ 0 ∧ r.complete = false)) = []) := by
  refine ⟨?_, ?_, ?_⟩
  · simp [getDownloadIDsToPause, foldl_pauseStep]
  · simp only [getDownloadIDsToPause, foldl_pauseStep, Bool.true_and, Bool.not_eq_true',
      List.all_eq_false, List.mem_filter]
    constructor
    · rintro ⟨r, ⟨hr, hp⟩, hpa⟩
      exact ⟨r, hr, (decide_eq_true_eq.mp hp).1, (decide_eq_true_eq.mp hp).2,
        Bool.not_eq_true _ ▸ hpa⟩
    · rintro ⟨r, hr, h1, h2, h3⟩
      exact ⟨r, ⟨hr, decide_eq_true_eq.mpr ⟨h1, h2⟩⟩, by simp [h3]⟩
  · have hfst : (getDownloadIDsToPause rows).1
        = (rows.filter fun r => decide (r.id ≠ 0 ∧ r.complete = false)).map Row.id := by
      simp [getDownloadIDsToPause, foldl_pauseStep]
    simp only [pauseSelectedEntries]
    rw [hfst]
    cases hf : rows.filter fun r => decide (r.id ≠ 0 ∧ r.complete = false) with
    | nil => simp
    | cons a l => simp

/-- Witness for C10 at a concrete row list. -/
theorem C10_gui_pause_selection_witness :
    (getDownloadIDsToPause [⟨0, false, false⟩, ⟨3, false, false⟩, ⟨4, true, false⟩]).1 = [3]
  ∧ (getDownloadIDsToPause [⟨0, false, false⟩, ⟨3, false, false⟩, ⟨4, true, false⟩]).2 = true
  ∧ pauseSelectedEntries [⟨0, false, false⟩, ⟨4, true, false⟩] = none := by
  have h1 := C10_gui_pause_selection [⟨0, false, false⟩, ⟨3, false, false⟩, ⟨4, true, false⟩]
  have h2 := C10_gui_pause_selection [⟨0, false, false⟩, ⟨4, true, false⟩]
  refine ⟨by simpa using h1.1, ?_, ?_⟩
  · exact h1.2.1.mpr ⟨⟨3, false, false⟩, by simp, by decide⟩
  · exact h2.2.2.mpr (by decide)

end GUIW

namespace DM

theorem sameKey_refl (e : Entry) : sameKey e e = true := by
  simp [sameKey]

theorem sameKey_comm (a b : Entry) : sameKey a b = sameKey b a := by
  rw [Bool.eq_iff_iff]
  simp only [sameKey, Bool.and_eq_true, decide_eq_true_eq]
  constructor
  · rintro ⟨⟨⟨h1, h2⟩, h3⟩, h4⟩
    exact ⟨⟨⟨h1.symm, h2.symm⟩, h3.symm⟩, h4.symm⟩
  · rintro ⟨⟨⟨h1, h2⟩, h3⟩, h4⟩
    exact ⟨⟨⟨h1.symm, h2.symm⟩, h3.symm⟩, h4.symm⟩

theorem mkDownload_entry (e : Entry) (p : Nat) (c : Bool) : (mkDownload e p c).entry = e := by
  unfold mkDownload
  cases e.type <;> rfl

theorem mkDownload_toTriple (e : Entry) (p : Nat) (c : Bool) :
    toTriple (mkDownload e p c) = (e, p, if e.type = EntryType.FILE then c else false) := by
  unfold mkDownload toTriple
  rcases e with ⟨ty, pa, na, sz, ie⟩
  cases ty <;> simp

theorem countRetrievingD_fileD {d : Download} {fd : FileDownloadData}
    (h : d.dat = .fileD fd) : countRetrievingD d = 0 := by
  unfold countRetrievingD
  rw [h]

theorem countRetrievingD_dirD_true {d : Download}
    (h : d.dat = .dirD true) : countRetrievingD d = 1 := by
  unfold countRetrievingD
  rw [h]

theorem countRetrievingD_dirD_false {d : Download}
    (h : d.dat = .dirD false) : countRetrievingD d = 0 := by
  unfold countRetrievingD
  rw [h]

theorem countDownloadingD_fileD {d : Download} {fd : FileDownloadData}
    (h : d.dat = .fileD fd) : countDownloadingD d = countDownloadingChunks fd.chunks := by
  unfold countDownloadingD
  rw [h]

theorem countDownloadingD_dirD {d : Download} {r : Bool}
    (h : d.dat = .dirD r) : countDownloadingD d = 0 := by
  unfold countDownloadingD
  rw [h]

theorem entry_map_of_triple_map {ds ds' : List Download}
    (h : ds'.map toTriple = ds.map toTriple) :
    ds'.map Download.entry = ds.map Download.entry := by
  have h1 : ds'.map (Prod.fst ∘ toTriple) = ds.map (Prod.fst ∘ toTriple) := by
    rw [← List.map_map, ← List.map_map, h]
  simpa [Function.comp, toTriple] using h1

theorem isEntryAlreadyQueued_eq_any (ds : List Download) (e : Entry) :
    isEntryAlreadyQueued ds e = (ds.map Download.entry).any fun x => sameKey x e := by
  induction ds with
  | nil => rfl
  | cons d rest ih =>
    unfold isEntryAlreadyQueued at ih ⊢
    simp only [List.any_cons, List.map_cons]
    rw [ih]

theorem insertAt_length_self (l : List α) (a : α) : insertAt l l.length a = l ++ [a] := by
  simp [insertAt]

theorem insertAt_append (P Q : List α) (a : α) : insertAt (P ++ Q) P.length a = P ++ a :: Q := by
  simp [insertAt, List.take_left, List.drop_left]

theorem removeAt_append (P Q : List α) (a : α) : removeAt (P ++ a :: Q) P.length = P ++ Q := by
  unfold removeAt
  have h1 : (P ++ a :: Q).take P.length = P := by
    simp
  have h2 : (P ++ a :: Q).drop (P.length + 1) = Q := by
    have hx : P ++ a :: Q = (P ++ [a]) ++ Q := by simp
    rw [hx]
    have hl : P.length + 1 = (P ++ [a]).length := by simp
    rw [hl, List.drop_left]
  rw [h1, h2]

theorem map_insertAt (f : α → β) (l : List α) (n : Nat) (a : α) :
    (insertAt l n a).map f = insertAt (l.map f) n (f a) := by
  simp [insertAt, List.map_take, List.map_drop]

theorem getElem?_middle (P Q : List α) (a : α) : (P ++ a :: Q)[P.length]? = some a := by
  rw [List.getElem?_append_right (Nat.le_refl _)]
  simp

/-- Master lemma about `setFirstDirRetrieving`: raising the `retrieving` flag of
the first `DirDownload` changes no `(entry, peer, complete)` triple, no chunk
status, and takes a queue with no retrieving `DirDownload` to one with exactly
one. -/
theorem setFirstDirRetrieving_spec :
    ∀ {ds ds' : List Download}, setFirstDirRetrieving ds = some ds' →
      ds'.map toTriple = ds.map toTriple
    ∧ countDownloading ds' = countDownloading ds
    ∧ (countRetrieving ds = 0 → countRetrieving ds' = 1)
    ∧ countRetrieving ds' ≤ countRetrieving ds + 1
  | [], _, h => by simp [setFirstDirRetrieving] at h
  | d :: rest, ds', h => by
    rcases hd : d.dat with fd | r
    · simp only [setFirstDirRetrieving, hd] at h
      cases hrec : setFirstDirRetrieving rest with
      | none => rw [hrec] at h; simp at h
      | some rest' =>
        rw [hrec] at h
        simp only [Option.map_some', Option.some.injEq] at h
        subst h
        obtain ⟨h1, h2, h3, h4⟩ := setFirstDirRetrieving_spec hrec
        refine ⟨by simp [h1], ?_, ?_, ?_⟩
        · simp only [countDownloading, h2]
        · intro h0
          simp only [countRetrieving, countRetrievingD_fileD hd] at h0 ⊢
          have h5 := h3 (by omega)
          omega
        · simp only [countRetrieving, countRetrievingD_fileD hd]
          omega
    · simp only [setFirstDirRetrieving, hd, Option.some.injEq] at h
      subst h
      have hd' : ({ d with dat := .dirD true } : Download).dat = .dirD true := rfl
      refine ⟨by simp [toTriple], ?_, ?_, ?_⟩
      · simp only [countDownloading, countDownloadingD_dirD hd', countDownloadingD_dirD hd]
      · intro h0
        cases r with
        | true =>
          simp only [countRetrieving, countRetrievingD_dirD_true hd] at h0
          omega
        | false =>
          simp only [countRetrieving, countRetrievingD_dirD_true hd',
            countRetrievingD_dirD_false hd] at h0 ⊢
          omega
      · cases r with
        | true =>
          simp only [countRetrieving, countRetrievingD_dirD_true hd',
            countRetrievingD_dirD_true hd]
          omega
        | false =>
          simp only [countRetrieving, countRetrievingD_dirD_true hd',
            countRetrievingD_dirD_false hd]
          omega

theorem scanRetrieve_projQ (s : MState) :
    projQ (scanTheQueueToRetrieveEntries s) = projQ s := by
  unfold scanTheQueueToRetrieveEntries
  split
  · rfl
  · cases hset : setFirstDirRetrieving s.downloads with
    | none => simp [hset]
    | some ds => simp [hset, projQ, (setFirstDirRetrieving_spec hset).1]

theorem scanRetrieve_counter (s : MState) :
    (scanTheQueueToRetrieveEntries s).numberOfDownload = s.numberOfDownload := by
  unfold scanTheQueueToRetrieveEntries
  split
  · rfl
  · cases hset : setFirstDirRetrieving s.downloads with
    | none => simp [hset]
    | some ds => simp [hset]

theorem scanRetrieve_countDownloading (s : MState) :
    countDownloading (scanTheQueueToRetrieveEntries s).downloads
      = countDownloading s.downloads := by
  unfold scanTheQueueToRetrieveEntries
  split
  · rfl
  · cases hset : setFirstDirRetrieving s.downloads with
    | none => simp [hset]
    | some ds => simp [hset, (setFirstDirRetrieving_spec hset).2.1]

end DM

namespace DM

theorem countRetrieving_append (l1 l2 : List Download) :
    countRetrieving (l1 ++ l2) = countRetrieving l1 + countRetrieving l2 := by
  induction l1 with
  | nil => simp [countRetrieving]
  | cons d rest ih => simp [countRetrieving, ih]; omega

theorem countDownloading_append (l1 l2 : List Download) :
    countDownloading (l1 ++ l2) = countDownloading l1 + countDownloading l2 := by
  induction l1 with
  | nil => simp [countDownloading]
  | cons d rest ih => simp [countDownloading, ih]; omega

theorem countRetrieving_insertAt (ds : List Download) (pos : Nat) (d : Download) :
    countRetrieving (insertAt ds pos d) = countRetrievingD d + countRetrieving ds := by
  unfold insertAt
  rw [countRetrieving_append]
  show _ + (countRetrievingD d + countRetrieving _) = _
  rw [← Nat.add_assoc, Nat.add_comm (countRetrieving _) (countRetrievingD d), Nat.add_assoc,
    ← countRetrieving_append, List.take_append_drop]

theorem countDownloading_insertAt (ds : List Download) (pos : Nat) (d : Download) :
    countDownloading (insertAt ds pos d) = countDownloadingD d + countDownloading ds := by
  unfold insertAt
  rw [countDownloading_append]
  show _ + (countDownloadingD d + countDownloading _) = _
  rw [← Nat.add_assoc, Nat.add_comm (countDownloading _) (countDownloadingD d), Nat.add_assoc,
    ← countDownloading_append, List.take_append_drop]

theorem mkDownload_countRetrievingD (e : Entry) (p : Nat) (c : Bool) :
    countRetrievingD (mkDownload e p c) = 0 := by
  unfold mkDownload countRetrievingD
  cases e.type <;> rfl

theorem mkDownload_countDownloadingD (e : Entry) (p : Nat) (c : Bool) :
    countDownloadingD (mkDownload e p c) = 0 := by
  unfold mkDownload countDownloadingD
  cases e.type <;> rfl

theorem scanRetrieve_RInv (s : MState) (h : RInv s) : RInv (scanTheQueueToRetrieveEntries s) := by
  unfold scanTheQueueToRetrieveEntries
  split
  · exact h
  · rename_i hflag
    cases hset : setFirstDirRetrieving s.downloads with
    | none => exact h
    | some ds =>
      have h0 : countRetrieving s.downloads = 0 := h.2 (by simpa using hflag)
      have h1 := (setFirstDirRetrieving_spec hset).2.2.1 h0
      exact ⟨by simp [h1], by simp⟩

theorem scanRetrieve_flag (s : MState) :
    (scanTheQueueToRetrieveEntries s).retrievingEntries = s.retrievingEntries
    ∨ (scanTheQueueToRetrieveEntries s).retrievingEntries = true := by
  unfold scanTheQueueToRetrieveEntries
  split
  · left; rfl
  · cases hset : setFirstDirRetrieving s.downloads with
    | none => left; simp [hset]
    | some ds => right; simp [hset]

theorem scanRetrieve_timer (s : MState) :
    (scanTheQueueToRetrieveEntries s).timerArmed = s.timerArmed := by
  unfold scanTheQueueToRetrieveEntries
  split
  · rfl
  · cases hset : setFirstDirRetrieving s.downloads with
    | none => simp [hset]
    | some ds => simp [hset]

/-- `addDownload` at any iterator position keeps the counter, the number of
`DOWNLOADING` chunks and the retrieval invariant. -/
theorem addDownloadAtS_master (s : MState) (pos : Nat) (e : Entry) (p : Nat) (c : Bool) :
    (addDownloadAtS s pos e p c).1.numberOfDownload = s.numberOfDownload
  ∧ countDownloading (addDownloadAtS s pos e p c).1.downloads = countDownloading s.downloads
  ∧ (RInv s → RInv (addDownloadAtS s pos e p c).1)
  ∧ (addDownloadAtS s pos e p c).1.timerArmed = s.timerArmed := by
  unfold addDownloadAtS
  split
  · exact ⟨rfl, rfl, id, rfl⟩
  · rename_i hfresh
    cases he : e.type with
    | FILE =>
      refine ⟨rfl, ?_, ?_, rfl⟩
      · simp [countDownloading_insertAt, mkDownload_countDownloadingD]
      · intro hr
        refine ⟨?_, ?_⟩
        · show countRetrieving (insertAt s.downloads pos (mkDownload e p c)) ≤ 1
          rw [countRetrieving_insertAt, mkDownload_countRetrievingD]
          simpa using hr.1
        · intro hflag
          show countRetrieving (insertAt s.downloads pos (mkDownload e p c)) = 0
          rw [countRetrieving_insertAt, mkDownload_countRetrievingD]
          simpa using hr.2 hflag
    | DIR =>
      set s' : MState :=
        { s with downloads := insertAt s.downloads pos (mkDownload e p c) } with hs'
      have hins1 : countDownloading s'.downloads = countDownloading s.downloads := by
        rw [hs']
        simp [countDownloading_insertAt, mkDownload_countDownloadingD]
      have hins2 : countRetrieving s'.downloads = countRetrieving s.downloads := by
        rw [hs']
        simp [countRetrieving_insertAt, mkDownload_countRetrievingD]
      refine ⟨?_, ?_, ?_, ?_⟩
      · simpa using scanRetrieve_counter s'
      · rw [scanRetrieve_countDownloading s', hins1]
      · intro hr
        exact scanRetrieve_RInv s' ⟨by rw [hins2]; exact hr.1, by intro hf; rw [hins2]; exact hr.2 hf⟩
      · simpa using scanRetrieve_timer s'

theorem any_insertAt (l : List α) (n : Nat) (a : α) (p : α → Bool) :
    (insertAt l n a).any p = (p a || l.any p) := by
  unfold insertAt
  rw [List.any_append, List.any_cons]
  cases hpa : p a
  · simp only [Bool.false_or]
    rw [← List.any_append, List.take_append_drop]
  · simp

theorem countP_insertAt (l : List α) (n : Nat) (a : α) (p : α → Bool) :
    (insertAt l n a).countP p = l.countP p + (if p a then 1 else 0) := by
  unfold insertAt
  rw [List.countP_append, List.countP_cons]
  conv_rhs => rw [← List.take_append_drop n l, List.countP_append]
  omega

end DM

namespace DM

theorem sameKey_symmetric : Symmetric fun a b : Entry => sameKey a b = false := by
  intro a b h
  rw [sameKey_comm]
  exact h

theorem isEntryAlreadyQueued_false_forall {ds : List Download} {e : Entry}
    (h : isEntryAlreadyQueued ds e = false) :
    ∀ d ∈ ds, sameKey d.entry e = false := by
  intro d hd
  have := List.any_eq_false.mp h d hd
  simpa using this

theorem distinctKeys_insertAt {s : List Download} {e : Entry} (pos : Nat) (p : Nat) (c : Bool)
    (h : distinctKeys s) (hfresh : isEntryAlreadyQueued s e = false) :
    distinctKeys (insertAt s pos (mkDownload e p c)) := by
  unfold distinctKeys at h ⊢
  rw [map_insertAt, mkDownload_entry]
  unfold insertAt
  rw [List.pairwise_middle (fun hx => sameKey_symmetric hx), List.pairwise_cons]
  constructor
  · intro b hb
    rw [List.take_append_drop] at hb
    have hmem : ∃ d ∈ s, d.entry = b := by
      obtain ⟨d, hd, rfl⟩ := List.mem_map.mp hb
      exact ⟨d, hd, rfl⟩
    obtain ⟨d, hd, rfl⟩ := hmem
    rw [sameKey_comm]
    exact isEntryAlreadyQueued_false_forall hfresh d hd
  · rw [List.take_append_drop]
    exact h

theorem distinctKeys_of_entry_map_eq {ds ds' : List Download}
    (h : ds'.map Download.entry = ds.map Download.entry)
    (hd : distinctKeys ds) : distinctKeys ds' := by
  unfold distinctKeys at hd ⊢
  rw [h]
  exact hd

theorem scanRetrieve_entries (s : MState) :
    (scanTheQueueToRetrieveEntries s).downloads.map Download.entry
      = s.downloads.map Download.entry := by
  unfold scanTheQueueToRetrieveEntries
  split
  · rfl
  · cases hset : setFirstDirRetrieving s.downloads with
    | none => simp [hset]
    | some ds => simp [hset, entry_map_of_triple_map (setFirstDirRetrieving_spec hset).1]

theorem addDownloadAtS_distinct (s : MState) (pos : Nat) (e : Entry) (p : Nat) (c : Bool)
    (h : distinctKeys s.downloads) :
    distinctKeys (addDownloadAtS s pos e p c).1.downloads := by
  unfold addDownloadAtS
  split
  · exact h
  · rename_i hfresh
    rw [Bool.not_eq_true] at hfresh
    cases he : e.type with
    | FILE => exact distinctKeys_insertAt pos p c h hfresh
    | DIR =>
      apply distinctKeys_of_entry_map_eq (scanRetrieve_entries _)
      exact distinctKeys_insertAt pos p c h hfresh

theorem projQ_addAt_fresh (s : MState) (pos : Nat) (e : Entry) (p : Nat) (c : Bool)
    (hfresh : isEntryAlreadyQueued s.downloads e = false) :
    projQ (addDownloadAtS s pos e p c).1 = insertAt (projQ s) pos (toTriple (mkDownload e p c))
    ∧ (addDownloadAtS s pos e p c).2 = true := by
  unfold addDownloadAtS
  rw [hfresh]
  simp only [Bool.false_eq_true, if_false]
  cases he : e.type with
  | FILE =>
    refine ⟨?_, rfl⟩
    show (insertAt s.downloads pos (mkDownload e p c)).map toTriple = _
    rw [map_insertAt]
    rfl
  | DIR =>
    refine ⟨?_, rfl⟩
    rw [scanRetrieve_projQ]
    show (insertAt s.downloads pos (mkDownload e p c)).map toTriple = _
    rw [map_insertAt]
    rfl

theorem entries_addAt_fresh (s : MState) (pos : Nat) (e : Entry) (p : Nat) (c : Bool)
    (hfresh : isEntryAlreadyQueued s.downloads e = false) :
    (addDownloadAtS s pos e p c).1.downloads.map Download.entry
      = insertAt (s.downloads.map Download.entry) pos e := by
  unfold addDownloadAtS
  rw [hfresh]
  simp only [Bool.false_eq_true, if_false]
  cases he : e.type with
  | FILE =>
    show (insertAt s.downloads pos (mkDownload e p c)).map Download.entry = _
    rw [map_insertAt, mkDownload_entry]
  | DIR =>
    rw [scanRetrieve_entries]
    show (insertAt s.downloads pos (mkDownload e p c)).map Download.entry = _
    rw [map_insertAt, mkDownload_entry]

theorem isQueued_addAt_fresh (s : MState) (pos : Nat) (e e' : Entry) (p : Nat) (c : Bool)
    (hfresh : isEntryAlreadyQueued s.downloads e = false) :
    isEntryAlreadyQueued (addDownloadAtS s pos e p c).1.downloads e'
      = (sameKey e e' || isEntryAlreadyQueued s.downloads e') := by
  rw [isEntryAlreadyQueued_eq_any, entries_addAt_fresh s pos e p c hfresh, any_insertAt,
    ← isEntryAlreadyQueued_eq_any]

theorem addDownloadTailS_dup (s : MState) (e : Entry) (p : Nat) (c : Bool)
    (h : isEntryAlreadyQueued s.downloads e = true) : addDownloadTailS s e p c = s := by
  unfold addDownloadTailS addDownloadAtS
  rw [h]
  rfl

theorem projQ_addTail_fresh (s : MState) (e : Entry) (p : Nat) (c : Bool)
    (hfresh : isEntryAlreadyQueued s.downloads e = false) :
    projQ (addDownloadTailS s e p c) = projQ s ++ [toTriple (mkDownload e p c)] := by
  unfold addDownloadTailS
  rw [(projQ_addAt_fresh s s.downloads.length e p c hfresh).1]
  have hlen : s.downloads.length = (projQ s).length := by simp [projQ]
  rw [hlen, insertAt_length_self]

theorem countKey_eq_count_entries (ds : List Download) (e : Entry) :
    countKey ds e = (ds.map Download.entry).countP fun x => sameKey x e := by
  rw [countKey, List.countP_map]
  rfl

theorem countKey_zero_iff (ds : List Download) (e : Entry) :
    countKey ds e = 0 ↔ isEntryAlreadyQueued ds e = false := by
  rw [countKey, List.countP_eq_zero]
  constructor
  · intro h
    apply List.any_eq_false.mpr
    intro d hd
    exact h d hd
  · intro h d hd
    exact List.any_eq_false.mp h d hd

theorem countKey_addTail_fresh (s : MState) (e e' : Entry) (p : Nat) (c : Bool)
    (hfresh : isEntryAlreadyQueued s.downloads e = false) :
    countKey (addDownloadTailS s e p c).downloads e'
      = countKey s.downloads e' + (if sameKey e e' then 1 else 0) := by
  rw [countKey_eq_count_entries, addDownloadTailS,
    entries_addAt_fresh s s.downloads.length e p c hfresh, countP_insertAt,
    ← countKey_eq_count_entries]

/-- C2: no two queued downloads ever share the `(type, path, name, size)` key
along any sequence of `addDownload` calls; a call whose entry key is already
queued leaves the manager unchanged; and `addDownload(e); addDownload(e)`
starting from a queue without `e`'s key leaves exactly one download with that
key. -/
theorem C2_duplicate_rejection (reqs : List (Entry × Nat × Bool)) (e : Entry)
    (p p' : Nat) (c c' : Bool) :
    distinctKeys (applyAddDownloads initState reqs).downloads
  ∧ (∀ s : MState, isEntryAlreadyQueued s.downloads e = true → addDownloadTailS s e p c = s)
  ∧ (∀ s : MState, countKey s.downloads e = 0 →
      countKey (addDownloadTailS (addDownloadTailS s e p c) e p' c').downloads e = 1) := by
  refine ⟨?_, fun s h => addDownloadTailS_dup s e p c h, ?_⟩
  · have hgen : ∀ (rs : List (Entry × Nat × Bool)) (s : MState), distinctKeys s.downloads →
        distinctKeys (applyAddDownloads s rs).downloads := by
      intro rs
      induction rs with
      | nil => intro s h; exact h
      | cons r rest ih =>
        intro s h
        exact ih _ (addDownloadAtS_distinct s s.downloads.length r.1 r.2.1 r.2.2 h)
    exact hgen reqs initState (List.Pairwise.nil)
  · intro s h0
    have hfresh : isEntryAlreadyQueued s.downloads e = false := (countKey_zero_iff _ _).mp h0
    have h1 : countKey (addDownloadTailS s e p c).downloads e = 1 := by
      rw [countKey_addTail_fresh s e e p c hfresh, sameKey_refl, h0]
      rfl
    have h2 : isEntryAlreadyQueued (addDownloadTailS s e p c).downloads e = true := by
      rw [addDownloadTailS, isQueued_addAt_fresh s s.downloads.length e e p c hfresh,
        sameKey_refl]
      rfl
    rw [addDownloadTailS_dup _ e p' c' h2]
    exact h1

/-- Witness for C2: a concrete double `addDownload` of the same entry. -/
theorem C2_duplicate_rejection_witness :
    (addDownloadTailS
      { downloads := [mkDownload ⟨.FILE, "", "a", 1, false⟩ 1 false],
        retrievingEntries := false, numberOfDownload := 0, timerArmed := false }
      ⟨.FILE, "", "a", 1, false⟩ 1 false)
      = { downloads := [mkDownload ⟨.FILE, "", "a", 1, false⟩ 1 false],
          retrievingEntries := false, numberOfDownload := 0, timerArmed := false }
  ∧ countKey (addDownloadTailS (addDownloadTailS initState ⟨.FILE, "", "a", 1, false⟩ 1 false)
      ⟨.FILE, "", "a", 1, false⟩ 2 true).downloads ⟨.FILE, "", "a", 1, false⟩ = 1 := by
  have h := C2_duplicate_rejection [] ⟨.FILE, "", "a", 1, false⟩ 1 2 false true
  exact ⟨h.2.1 _ (by decide), h.2.2 initState (by decide)⟩

end DM

namespace DM

/-- Replaying saved entries with pairwise-distinct keys, all fresh for the
current queue, appends them in order. -/
theorem projQ_load_replay (L : List SavedEntry) : ∀ (s : MState),
    (L.map fun en => en.entry).Pairwise (fun a b => sameKey a b = false) →
    (∀ en ∈ L, isEntryAlreadyQueued s.downloads en.entry = false) →
    projQ (L.foldl (fun st en => addDownloadTailS st en.entry en.peerId en.complete) s)
      = projQ s ++ L.map fun en => toTriple (mkDownload en.entry en.peerId en.complete) := by
  induction L with
  | nil => intro s _ _; simp
  | cons en L' ih =>
    intro s hpair hfresh
    rw [List.map_cons, List.pairwise_cons] at hpair
    have hfr : isEntryAlreadyQueued s.downloads en.entry = false := hfresh en (by simp)
    have hstep := projQ_addTail_fresh s en.entry en.peerId en.complete hfr
    rw [List.foldl_cons, ih (addDownloadTailS s en.entry en.peerId en.complete) hpair.2 ?_,
      hstep]
    · simp
    · intro en' hen'
      rw [addDownloadTailS, isQueued_addAt_fresh s _ _ _ _ _ hfr]
      have h1 : sameKey en.entry en'.entry = false :=
        hpair.1 en'.entry (List.mem_map.mpr ⟨en', hen', rfl⟩)
      rw [h1, hfresh en' (by simp [hen'])]
      rfl

/-- C4: saving the queue and loading the record into a fresh manager restores
the same ordered `(entry, peer-source, complete)` triples, for any queue the
manager can actually hold (pairwise-distinct keys, directory downloads carrying
`complete = false`). -/
theorem C4_persistence_roundtrip (s : MState) (V : Int)
    (h1 : distinctKeys s.downloads) (h2 : dirsNotComplete s.downloads) :
    projQ (loadQueueFromFileS initState V (.ok (saveQueueToFile s V))).state = projQ s := by
  unfold saveQueueToFile
  simp only [loadQueueFromFileS]
  rw [if_neg (by simp)]
  have hkeys : ((s.downloads.map populateEntry).map fun en => en.entry)
      = s.downloads.map Download.entry := by
    rw [List.map_map]
    rfl
  rw [projQ_load_replay (s.downloads.map populateEntry) initState
    (by rw [hkeys]; exact h1)
    (by intro en _; rfl)]
  have hnil : projQ initState = [] := rfl
  rw [hnil, List.nil_append, List.map_map]
  apply List.map_congr_left
  intro d hd
  show toTriple (mkDownload d.entry d.peerSource d.complete) = toTriple d
  rw [mkDownload_toTriple]
  unfold toTriple
  cases he : d.entry.type with
  | FILE => simp
  | DIR =>
    rw [h2 d hd he]
    simp

/-- Witness for C4: a queue with one directory and one file download
round-trips. -/
theorem C4_persistence_roundtrip_witness :
    projQ (loadQueueFromFileS initState 3 (.ok (saveQueueToFile
      { downloads := [mkDownload ⟨.DIR, "", "d", 0, false⟩ 9 false,
                      mkDownload ⟨.FILE, "", "a", 1, false⟩ 7 true],
        retrievingEntries := false, numberOfDownload := 0, timerArmed := false } 3))).state
    = projQ { downloads := [mkDownload ⟨.DIR, "", "d", 0, false⟩ 9 false,
                            mkDownload ⟨.FILE, "", "a", 1, false⟩ 7 true],
              retrievingEntries := false, numberOfDownload := 0, timerArmed := false } := by
  apply C4_persistence_roundtrip
  · unfold distinctKeys
    decide
  · unfold dirsNotComplete
    decide

/-- C5: `loadQueueFromFile` is total (the model is a function): a version
mismatch removes the persisted record and leaves the queue empty; a missing
record or a failed deserialisation leaves the queue empty without removing
anything; a matching version replays every saved entry through `addDownload`
in order, preserving order and `complete` flags. -/
theorem C5_load_error_handling (V : Int) (fetched : FetchResult) :
    (∀ record, fetched = .ok record → record.version ≠ V →
        (loadQueueFromFileS initState V fetched).state = initState
      ∧ (loadQueueFromFileS initState V fetched).removedRecord = true)
  ∧ ((fetched = .unknownValue ∨ fetched = .otherExc) →
        (loadQueueFromFileS initState V fetched).state = initState
      ∧ (loadQueueFromFileS initState V fetched).removedRecord = false)
  ∧ (∀ record, fetched = .ok record → record.version = V →
        (loadQueueFromFileS initState V fetched).state
          = record.entries.foldl
              (fun st en => addDownloadTailS st en.entry en.peerId en.complete) initState
      ∧ (loadQueueFromFileS initState V fetched).removedRecord = false
      ∧ ((record.entries.map fun en => en.entry).Pairwise (fun a b => sameKey a b = false) →
          projQ (loadQueueFromFileS initState V fetched).state
            = record.entries.map fun en =>
                toTriple (mkDownload en.entry en.peerId en.complete))) := by
  refine ⟨?_, ?_, ?_⟩
  · rintro record rfl hv
    simp only [loadQueueFromFileS]
    rw [if_pos hv]
    exact ⟨rfl, rfl⟩
  · rintro (rfl | rfl) <;> exact ⟨rfl, rfl⟩
  · rintro record rfl hv
    simp only [loadQueueFromFileS]
    rw [if_neg (by simp [hv])]
    refine ⟨rfl, rfl, ?_⟩
    intro hpair
    have h := projQ_load_replay record.entries initState hpair (by intro en _; rfl)
    simpa using h

/-- Witness for C5: a mismatched version is discarded, a missing record gives an
empty queue, a matching version replays its entry. -/
theorem C5_load_error_handling_witness :
    ((loadQueueFromFileS initState 3 (.ok ⟨4, [⟨⟨.FILE, "", "a", 1, false⟩, 7, true⟩]⟩)).state
        = initState
      ∧ (loadQueueFromFileS initState 3
          (.ok ⟨4, [⟨⟨.FILE, "", "a", 1, false⟩, 7, true⟩]⟩)).removedRecord = true)
  ∧ ((loadQueueFromFileS initState 3 FetchResult.unknownValue).state = initState
      ∧ (loadQueueFromFileS initState 3 FetchResult.unknownValue).removedRecord = false)
  ∧ projQ (loadQueueFromFileS initState 3
        (.ok ⟨3, [⟨⟨.FILE, "", "a", 1, false⟩, 7, true⟩]⟩)).state
      = [toTriple (mkDownload ⟨.FILE, "", "a", 1, false⟩ 7 true)] := by
  have h1 := C5_load_error_handling 3 (.ok ⟨4, [⟨⟨.FILE, "", "a", 1, false⟩, 7, true⟩]⟩)
  have h2 := C5_load_error_handling 3 FetchResult.unknownValue
  have h3 := C5_load_error_handling 3 (.ok ⟨3, [⟨⟨.FILE, "", "a", 1, false⟩, 7, true⟩]⟩)
  refine ⟨h1.1 _ rfl (by decide), h2.2.1 (Or.inl rfl), ?_⟩
  have := (h3.2.2 _ rfl rfl).2.2 (by decide)
  simpa using this

end DM

namespace DM

/-- Key equality is transitive (it is componentwise equality of the four key
fields). -/
theorem sameKey_trans {a b c : Entry} (h1 : sameKey a b = true) (h2 : sameKey b c = true) :
    sameKey a c = true := by
  simp only [sameKey, Bool.and_eq_true, decide_eq_true_eq] at h1 h2 ⊢
  exact ⟨⟨⟨h1.1.1.1.trans h2.1.1.1, h1.1.1.2.trans h2.1.1.2⟩, h1.1.2.trans h2.1.2⟩,
    h1.2.trans h2.2⟩

/-- `siftChildren` only looks at the base through key matches, so two bases
matching the same keys sift identically. -/
theorem siftChildren_congr (cs : List Entry) :
    ∀ qs qs' : List Entry,
    (∀ c, (qs.any fun e => sameKey e c) = (qs'.any fun e => sameKey e c)) →
    siftChildren qs cs = siftChildren qs' cs := by
  induction cs with
  | nil => intro qs qs' _; rfl
  | cons c rest ih =>
    intro qs qs' h
    rw [siftChildren, siftChildren, h c]
    cases hc : (qs'.any fun e => sameKey e c) with
    | true =>
      simp only [if_pos]
      exact ih qs qs' h
    | false =>
      simp only [Bool.false_eq_true, if_false]
      refine congrArg (List.cons c) (ih (qs ++ [c]) (qs' ++ [c]) ?_)
      intro c'
      rw [List.any_append, List.any_append, h c']

/-- The evolving duplicate check (against the queue, which only holds the
surviving siblings) equals the check against the queue plus every earlier
sibling: by transitivity of the key match, matching a dropped sibling means
matching whatever that sibling was dropped for. -/
theorem siftChildren_eq_all (cs : List Entry) :
    ∀ qs qs' : List Entry,
    (∀ c, (qs.any fun e => sameKey e c) = (qs'.any fun e => sameKey e c)) →
    siftChildren qs cs = siftChildrenAll qs' cs := by
  induction cs with
  | nil => intro qs qs' _; rfl
  | cons c rest ih =>
    intro qs qs' h
    rw [siftChildren, siftChildrenAll, h c]
    cases hc : (qs'.any fun e => sameKey e c) with
    | true =>
      simp only [if_pos]
      refine ih qs (qs' ++ [c]) ?_
      intro c'
      rw [h c', List.any_append, List.any_cons, List.any_nil]
      cases hcc : sameKey c c' with
      | false => simp
      | true =>
        rw [List.any_eq_true] at hc
        obtain ⟨e, he, hek⟩ := hc
        have : qs'.any (fun e => sameKey e c') = true := by
          rw [List.any_eq_true]
          exact ⟨e, he, sameKey_trans (by simpa using hek) hcc⟩
        rw [this]
        simp
    | false =>
      simp only [Bool.false_eq_true, if_false]
      refine congrArg (List.cons c) (ih (qs ++ [c]) (qs' ++ [c]) ?_)
      intro c'
      rw [List.any_append, List.any_append, h c']

/-- The replay loop of `newEntries` over an arbitrary children list: each child
goes through `addDownload`'s duplicate check against the evolving queue, so
exactly the `siftChildren` survivors are inserted at the iterator position in
the order received, the surrounding triples untouched. -/
theorem projQ_replayChildren (children : List Entry) :
    ∀ (s : MState) (P Q : List (Entry × Nat × Bool)) (base : List Entry) (peer : Nat),
    projQ s = P ++ Q →
    s.downloads.map Download.entry = base →
    projQ (replayChildrenS s P.length peer children)
      = P ++ ((siftChildren base children).map fun c => toTriple (mkDownload c peer false))
          ++ Q := by
  induction children with
  | nil =>
    intro s P Q base peer hproj _
    rw [replayChildrenS, siftChildren]
    simpa using hproj
  | cons c cs ih =>
    intro s P Q base peer hproj hbase
    have hq : isEntryAlreadyQueued s.downloads c = base.any fun e => sameKey e c := by
      rw [isEntryAlreadyQueued_eq_any, hbase]
    rw [replayChildrenS, siftChildren]
    cases hc : (base.any fun e => sameKey e c) with
    | true =>
      have hdup : addDownloadAtS s P.length c peer false = (s, false) := by
        unfold addDownloadAtS
        simp only [hq, hc, if_pos]
      rw [hdup]
      dsimp only
      simp only [Bool.false_eq_true, if_false, if_pos]
      exact ih s P Q base peer hproj hbase
    | false =>
      have hfr : isEntryAlreadyQueued s.downloads c = false := by rw [hq, hc]
      obtain ⟨hproj', hins⟩ := projQ_addAt_fresh s P.length c peer false hfr
      have hent := entries_addAt_fresh s P.length c peer false hfr
      have hproj2 : projQ (addDownloadAtS s P.length c peer false).1
          = (P ++ [toTriple (mkDownload c peer false)]) ++ Q := by
        rw [hproj', hproj, insertAt_append]
        simp
      simp only [Bool.false_eq_true, if_false]
      rcases hsplit : addDownloadAtS s P.length c peer false with ⟨s', inserted⟩
      rw [hsplit] at hproj2 hins hent
      simp only at hproj2 hins hent
      dsimp only
      rw [hins]
      simp only [if_pos]
      have hsift : siftChildren (base ++ [c]) cs = siftChildren (insertAt base P.length c) cs := by
        apply siftChildren_congr
        intro c'
        rw [any_insertAt, List.any_append, List.any_cons, List.any_nil]
        cases hcc : sameKey c c' <;> simp [hcc]
      have hbase2 : s'.downloads.map Download.entry = insertAt base P.length c := by
        rw [hent, hbase]
      have hlen : P.length + 1 = (P ++ [toTriple (mkDownload c peer false)]).length := by
        simp
      rw [hlen, ih s' _ Q (insertAt base P.length c) peer hproj2 hbase2, ← hsift]
      simp

/-- C3 (amended): when `newEntries` resolves the `DirDownload` at position `j`,
the placeholder is removed and exactly those children that pass `addDownload`'s
duplicate check are inserted at the placeholder's former position in the order
received — a child is dropped precisely when its `(type, path, name, size)` key
is already queued or equal to an earlier sibling's key (second conjunct: the
evolving check the code performs coincides with that phrasing) — while the
other queued downloads keep their relative order; an empty child list just
removes the placeholder (third conjunct). -/
theorem C3_dir_resolution_splice (s : MState) (pre post : List Download) (d : Download)
    (r : Bool) (children : List Entry)
    (hq : s.downloads = pre ++ d :: post)
    (hd : d.dat = .dirD r) :
    projQ (newEntriesS s pre.length children)
      = pre.map toTriple
        ++ ((siftChildren ((pre ++ post).map Download.entry) children).map
              fun c => toTriple (mkDownload c d.peerSource false))
        ++ post.map toTriple
  ∧ siftChildren ((pre ++ post).map Download.entry) children
      = siftChildrenAll ((pre ++ post).map Download.entry) children
  ∧ (children = [] →
      projQ (newEntriesS s pre.length children)
        = pre.map toTriple ++ post.map toTriple) := by
  have hmain : projQ (newEntriesS s pre.length children)
      = pre.map toTriple
        ++ ((siftChildren ((pre ++ post).map Download.entry) children).map
              fun c => toTriple (mkDownload c d.peerSource false))
        ++ post.map toTriple := by
    unfold newEntriesS
    rw [hq, getElem?_middle]
    dsimp only
    rw [hd]
    dsimp only
    rw [scanRetrieve_projQ, removeAt_append]
    have hlen : pre.length = (pre.map toTriple).length := by simp
    rw [hlen]
    apply projQ_replayChildren children _ (pre.map toTriple) (post.map toTriple)
      ((pre ++ post).map Download.entry) d.peerSource
    · unfold projQ
      dsimp only
      rw [List.map_append]
    · rfl
  refine ⟨hmain, siftChildren_eq_all children _ _ (fun c => rfl), ?_⟩
  rintro rfl
  rw [hmain, siftChildren]
  simp

/-- Counterexample to C3 as frozen: a child whose key already sits in the queue
is dropped by `addDownload`'s duplicate check, not inserted at the
placeholder's position. -/
theorem C3_counterexample :
    projQ (newEntriesS
      { downloads := [mkDownload ⟨.FILE, "", "a", 1, false⟩ 7 false,
                      { entry := ⟨.DIR, "", "d", 0, false⟩, peerSource := 9,
                        complete := false, dat := .dirD true }],
        retrievingEntries := true, numberOfDownload := 0, timerArmed := false }
      1 [⟨.FILE, "", "a", 1, false⟩])
    ≠ [toTriple (mkDownload ⟨.FILE, "", "a", 1, false⟩ 7 false),
       toTriple (mkDownload ⟨.FILE, "", "a", 1, false⟩ 9 false)] := by
  decide

/-- Witness for the amended C3, at a mixed resolution: of four children, the
first duplicates a queued file and the third duplicates its earlier sibling —
both are dropped — while the second and fourth splice in order at the
placeholder's position between the two queued files. -/
theorem C3_dir_resolution_splice_witness :
    projQ (newEntriesS
      { downloads := [mkDownload ⟨.FILE, "", "a", 1, false⟩ 7 false,
                      { entry := ⟨.DIR, "", "d", 0, false⟩, peerSource := 9,
                        complete := false, dat := .dirD true },
                      mkDownload ⟨.FILE, "", "b", 2, false⟩ 7 false],
        retrievingEntries := true, numberOfDownload := 0, timerArmed := false }
      1 [⟨.FILE, "", "a", 1, false⟩, ⟨.FILE, "", "c1", 3, false⟩,
         ⟨.FILE, "", "c1", 3, false⟩, ⟨.DIR, "", "c2", 0, false⟩])
    = [toTriple (mkDownload ⟨.FILE, "", "a", 1, false⟩ 7 false),
       toTriple (mkDownload ⟨.FILE, "", "c1", 3, false⟩ 9 false),
       toTriple (mkDownload ⟨.DIR, "", "c2", 0, false⟩ 9 false),
       toTriple (mkDownload ⟨.FILE, "", "b", 2, false⟩ 7 false)] := by
  have h := C3_dir_resolution_splice
    { downloads := [mkDownload ⟨.FILE, "", "a", 1, false⟩ 7 false,
                    { entry := ⟨.DIR, "", "d", 0, false⟩, peerSource := 9,
                      complete := false, dat := .dirD true },
                    mkDownload ⟨.FILE, "", "b", 2, false⟩ 7 false],
      retrievingEntries := true, numberOfDownload := 0, timerArmed := false }
    [mkDownload ⟨.FILE, "", "a", 1, false⟩ 7 false]
    [mkDownload ⟨.FILE, "", "b", 2, false⟩ 7 false]
    { entry := ⟨.DIR, "", "d", 0, false⟩, peerSource := 9,
      complete := false, dat := .dirD true }
    true
    [⟨.FILE, "", "a", 1, false⟩, ⟨.FILE, "", "c1", 3, false⟩,
     ⟨.FILE, "", "c1", 3, false⟩, ⟨.DIR, "", "c2", 0, false⟩]
    rfl rfl
  have h1 := h.1
  simp only [List.length_cons, List.length_nil, Nat.zero_add] at h1
  rw [h1]
  decide

end DM

namespace DM

theorem softStatus_fileD {d : Download} {fd : FileDownloadData} (h : d.dat = .fileD fd) :
    softStatus d = decide (0x20 ≤ fd.status) := by
  unfold softStatus
  rw [h]

theorem softStatus_dirD {d : Download} {r : Bool} (h : d.dat = .dirD r) :
    softStatus d = false := by
  unfold softStatus
  rw [h]

theorem countDownloadingChunks_set (l : List ChunkStatus) (i : Nat) (a b : ChunkStatus)
    (h : l[i]? = some a) :
    countDownloadingChunks (l.set i b) + (if a = ChunkStatus.DOWNLOADING then 1 else 0)
      = countDownloadingChunks l + (if b = ChunkStatus.DOWNLOADING then 1 else 0) := by
  induction l generalizing i with
  | nil => simp at h
  | cons x xs ih =>
    cases i with
    | zero =>
      simp only [List.getElem?_cons_zero, Option.some.injEq] at h
      subst h
      simp only [List.set_cons_zero, countDownloadingChunks]
      omega
    | succ n =>
      simp only [List.getElem?_cons_succ] at h
      have := ih n h
      simp only [List.set_cons_succ, countDownloadingChunks]
      omega

theorem countDownloadingChunks_append (l1 l2 : List ChunkStatus) :
    countDownloadingChunks (l1 ++ l2)
      = countDownloadingChunks l1 + countDownloadingChunks l2 := by
  induction l1 with
  | nil => simp [countDownloadingChunks]
  | cons x xs ih =>
    rw [List.cons_append, countDownloadingChunks, countDownloadingChunks, ih]
    omega

theorem removeAt_cons_succ (x : α) (xs : List α) (n : Nat) :
    removeAt (x :: xs) (n + 1) = x :: removeAt xs n := by
  simp [removeAt, List.take_succ_cons, List.drop_succ_cons]

theorem countDownloadingChunks_pos {l : List ChunkStatus} {k : Nat}
    (h : l[k]? = some ChunkStatus.DOWNLOADING) : 1 ≤ countDownloadingChunks l := by
  induction l generalizing k with
  | nil => simp at h
  | cons x xs ih =>
    cases k with
    | zero =>
      simp only [List.getElem?_cons_zero, Option.some.injEq] at h
      subst h
      simp [countDownloadingChunks]
    | succ n =>
      simp only [List.getElem?_cons_succ] at h
      have := ih h
      simp only [countDownloadingChunks]
      omega

theorem countDownloading_set (ds : List Download) (j : Nat) (d d' : Download)
    (h : ds[j]? = some d) :
    countDownloading (ds.set j d') + countDownloadingD d
      = countDownloading ds + countDownloadingD d' := by
  induction ds generalizing j with
  | nil => simp at h
  | cons x xs ih =>
    cases j with
    | zero =>
      simp only [List.getElem?_cons_zero, Option.some.injEq] at h
      subst h
      simp only [List.set_cons_zero, countDownloading]
      omega
    | succ n =>
      simp only [List.getElem?_cons_succ] at h
      have := ih n h
      simp only [List.set_cons_succ, countDownloading]
      omega

theorem countRetrieving_set (ds : List Download) (j : Nat) (d d' : Download)
    (h : ds[j]? = some d) :
    countRetrieving (ds.set j d') + countRetrievingD d
      = countRetrieving ds + countRetrievingD d' := by
  induction ds generalizing j with
  | nil => simp at h
  | cons x xs ih =>
    cases j with
    | zero =>
      simp only [List.getElem?_cons_zero, Option.some.injEq] at h
      subst h
      simp only [List.set_cons_zero, countRetrieving]
      omega
    | succ n =>
      simp only [List.getElem?_cons_succ] at h
      have := ih n h
      simp only [List.set_cons_succ, countRetrieving]
      omega

theorem countDownloading_removeAt (ds : List Download) (j : Nat) (d : Download)
    (h : ds[j]? = some d) :
    countDownloading (removeAt ds j) + countDownloadingD d = countDownloading ds := by
  induction ds generalizing j with
  | nil => simp at h
  | cons x xs ih =>
    cases j with
    | zero =>
      simp only [List.getElem?_cons_zero, Option.some.injEq] at h
      subst h
      simp only [removeAt, List.take_zero, List.drop_succ_cons, List.drop_zero,
        List.nil_append, countDownloading]
      omega
    | succ n =>
      simp only [List.getElem?_cons_succ] at h
      have := ih n h
      rw [removeAt_cons_succ]
      simp only [countDownloading]
      omega

theorem countRetrieving_removeAt (ds : List Download) (j : Nat) (d : Download)
    (h : ds[j]? = some d) :
    countRetrieving (removeAt ds j) + countRetrievingD d = countRetrieving ds := by
  induction ds generalizing j with
  | nil => simp at h
  | cons x xs ih =>
    cases j with
    | zero =>
      simp only [List.getElem?_cons_zero, Option.some.injEq] at h
      subst h
      simp only [removeAt, List.take_zero, List.drop_succ_cons, List.drop_zero,
        List.nil_append, countRetrieving]
      omega
    | succ n =>
      simp only [List.getElem?_cons_succ] at h
      have := ih n h
      rw [removeAt_cons_succ]
      simp only [countRetrieving]
      omega

theorem countDownloadingD_le {ds : List Download} {j : Nat} {d : Download}
    (h : ds[j]? = some d) : countDownloadingD d ≤ countDownloading ds := by
  induction ds generalizing j with
  | nil => simp at h
  | cons x xs ih =>
    cases j with
    | zero =>
      simp only [List.getElem?_cons_zero, Option.some.injEq] at h
      subst h
      simp only [countDownloading]
      omega
    | succ n =>
      simp only [List.getElem?_cons_succ] at h
      have := ih h
      simp only [countDownloading]
      omega

theorem tryStart_spec (fd : FileDownloadData) (pick : Option Nat) :
    ((tryStart fd pick).2 = false → (tryStart fd pick).1 = fd)
  ∧ ((tryStart fd pick).2 = true →
      countDownloadingChunks (tryStart fd pick).1.chunks
        = countDownloadingChunks fd.chunks + 1)
  ∧ (tryStart fd pick).1.status = fd.status := by
  cases pick with
  | none => exact ⟨fun _ => rfl, fun h => by simp [tryStart] at h, rfl⟩
  | some i =>
    cases hch : fd.chunks[i]? with
    | none =>
      have he : tryStart fd (some i) = (fd, false) := by
        simp [tryStart, hch]
      rw [he]
      exact ⟨fun _ => rfl, fun h => by simp at h, rfl⟩
    | some st =>
      cases st with
      | IDLE =>
        have he : tryStart fd (some i)
            = ({ fd with chunks := fd.chunks.set i .DOWNLOADING }, true) := by
          simp [tryStart, hch]
        rw [he]
        refine ⟨fun h => by simp at h, fun _ => ?_, rfl⟩
        have hcnt := countDownloadingChunks_set fd.chunks i ChunkStatus.IDLE
          ChunkStatus.DOWNLOADING hch
        rw [if_neg (by decide), if_pos rfl] at hcnt
        show countDownloadingChunks (fd.chunks.set i ChunkStatus.DOWNLOADING)
          = countDownloadingChunks fd.chunks + 1
        omega
      | DOWNLOADING =>
        have he : tryStart fd (some i) = (fd, false) := by
          simp [tryStart, hch]
        rw [he]
        exact ⟨fun _ => rfl, fun h => by simp at h, rfl⟩
      | COMPLETE =>
        have he : tryStart fd (some i) = (fd, false) := by
          simp [tryStart, hch]
        rw [he]
        exact ⟨fun _ => rfl, fun h => by simp at h, rfl⟩
      | FAILED =>
        have he : tryStart fd (some i) = (fd, false) := by
          simp [tryStart, hch]
        rw [he]
        exact ⟨fun _ => rfl, fun h => by simp at h, rfl⟩

end DM

namespace DM

/-- Master lemma about one run of the `scanTheQueue` loop: the final counter is
the initial counter plus the number of successful `startDownloading` calls; the
number of `DOWNLOADING` chunks grows by exactly that number; the counter never
exceeds `NUMBER_OF_DOWNLOADER`; `retrieving` flags are untouched; and when the
budget is never exhausted the timer is armed exactly when some `FileDownload`
in the whole queue reports a soft-error status. -/
theorem scanGo_spec (N : Nat) :
    ∀ (ds : List Download) (oracle : List (Option Nat)) (c : Int),
      (scanGo N ds oracle c).counter = c + (scanGo N ds oracle c).nStarts
    ∧ countDownloading (scanGo N ds oracle c).downloads
        = countDownloading ds + (scanGo N ds oracle c).nStarts
    ∧ (c ≤ (N : Int) → (scanGo N ds oracle c).counter ≤ (N : Int))
    ∧ countRetrieving (scanGo N ds oracle c).downloads = countRetrieving ds
    ∧ ((scanGo N ds oracle c).counter < (N : Int) →
        (scanGo N ds oracle c).soft = ds.any softStatus) := by
  intro ds
  induction ds with
  | nil =>
    intro oracle c
    refine ⟨by simp [scanGo], by simp [scanGo], ?_, by simp [scanGo], ?_⟩
    · intro h
      simpa [scanGo] using h
    · intro _
      simp [scanGo]
  | cons d rest ih =>
    intro oracle c
    by_cases hc : c < (N : Int)
    · rcases hdat : d.dat with fd | r
      · -- a FileDownload is visited
        have hts := tryStart_spec fd (oracle.headD none)
        rcases hsplit : tryStart fd (oracle.headD none) with ⟨fd', started⟩
        rw [hsplit] at hts
        simp only at hts
        obtain ⟨hts0, hts1, _⟩ := hts
        rw [scanGo, if_pos hc, hdat]
        dsimp only
        rw [hsplit]
        dsimp only
        cases started with
        | true =>
          have hcnt := hts1 rfl
          obtain ⟨ih1, ih2, ih3, ih4, ih5⟩ := ih oracle.tail (c + 1)
          rw [if_pos rfl]
          refine ⟨?_, ?_, ?_, ?_, ?_⟩
          · show (scanGo N rest oracle.tail (c + 1)).counter
              = c + ((1 + (scanGo N rest oracle.tail (c + 1)).nStarts : Nat) : Int)
            push_cast
            omega
          · show countDownloadingD { d with dat := .fileD fd' }
                + countDownloading (scanGo N rest oracle.tail (c + 1)).downloads
              = countDownloading (d :: rest)
                + ((1 + (scanGo N rest oracle.tail (c + 1)).nStarts : Nat) : Nat)
            have hdd : countDownloadingD { d with dat := DownloadData.fileD fd' }
                = countDownloadingChunks fd'.chunks := rfl
            simp only [countDownloading, hdd, countDownloadingD_fileD hdat]
            omega
          · intro _
            show (scanGo N rest oracle.tail (c + 1)).counter ≤ (N : Int)
            exact ih3 (by omega)
          · show countRetrievingD { d with dat := .fileD fd' }
                + countRetrieving (scanGo N rest oracle.tail (c + 1)).downloads
              = countRetrieving (d :: rest)
            have h1 : countRetrievingD { d with dat := DownloadData.fileD fd' } = 0 := rfl
            simp only [countRetrieving, h1, countRetrievingD_fileD hdat, ih4]
          · intro hlt
            show (decide (0x20 ≤ fd.status) || (scanGo N rest oracle.tail (c + 1)).soft)
              = (d :: rest).any softStatus
            rw [List.any_cons, softStatus_fileD hdat, ih5 hlt]
        | false =>
          have hfd : fd' = fd := hts0 rfl
          subst hfd
          obtain ⟨ih1, ih2, ih3, ih4, ih5⟩ := ih oracle.tail c
          rw [if_neg (by simp)]
          refine ⟨?_, ?_, ?_, ?_, ?_⟩
          · show (scanGo N rest oracle.tail c).counter
              = c + ((0 + (scanGo N rest oracle.tail c).nStarts : Nat) : Int)
            push_cast
            omega
          · show countDownloadingD { d with dat := .fileD fd' }
                + countDownloading (scanGo N rest oracle.tail c).downloads
              = countDownloading (d :: rest) + (0 + (scanGo N rest oracle.tail c).nStarts)
            have hdd : countDownloadingD { d with dat := DownloadData.fileD fd' }
                = countDownloadingChunks fd'.chunks := rfl
            simp only [countDownloading, hdd, countDownloadingD_fileD hdat]
            omega
          · intro hle
            show (scanGo N rest oracle.tail c).counter ≤ (N : Int)
            exact ih3 hle
          · show countRetrievingD { d with dat := .fileD fd' }
                + countRetrieving (scanGo N rest oracle.tail c).downloads
              = countRetrieving (d :: rest)
            have h1 : countRetrievingD { d with dat := DownloadData.fileD fd' } = 0 := rfl
            simp only [countRetrieving, h1, countRetrievingD_fileD hdat, ih4]
          · intro hlt
            show (decide (0x20 ≤ fd'.status) || (scanGo N rest oracle.tail c).soft)
              = (d :: rest).any softStatus
            rw [List.any_cons, softStatus_fileD hdat, ih5 hlt]
      · -- a DirDownload is skipped
        obtain ⟨ih1, ih2, ih3, ih4, ih5⟩ := ih oracle c
        rw [scanGo, if_pos hc, hdat]
        dsimp only
        refine ⟨ih1, ?_, fun hle => ih3 hle, ?_, ?_⟩
        · show countDownloadingD d + countDownloading (scanGo N rest oracle c).downloads
            = countDownloading (d :: rest) + (scanGo N rest oracle c).nStarts
          simp only [countDownloading, countDownloadingD_dirD hdat, ih2]
          omega
        · show countRetrievingD d + countRetrieving (scanGo N rest oracle c).downloads
            = countRetrieving (d :: rest)
          simp only [countRetrieving, ih4]
        · intro hlt
          show (scanGo N rest oracle c).soft = (d :: rest).any softStatus
          rw [List.any_cons, softStatus_dirD hdat, ih5 hlt, Bool.false_or]
    · -- budget exhausted: the loop exits
      rw [scanGo, if_neg hc]
      refine ⟨by simp, by simp, ?_, rfl, ?_⟩
      · intro hle
        exact hle
      · intro hlt
        exact absurd hlt hc

end DM

namespace DM

theorem countDownloadingChunks_eq_zero {l : List ChunkStatus}
    (h : ∀ c ∈ l, c ≠ ChunkStatus.DOWNLOADING) : countDownloadingChunks l = 0 := by
  induction l with
  | nil => rfl
  | cons x xs ih =>
    rw [countDownloadingChunks, if_neg (h x (by simp)), ih (fun c hc => h c (by simp [hc]))]

theorem hasDownloadingChunk_false_count {d : Download}
    (h : hasDownloadingChunk d = false) : countDownloadingD d = 0 := by
  rcases hdat : d.dat with fd | r
  · rw [countDownloadingD_fileD hdat]
    unfold hasDownloadingChunk at h
    rw [hdat] at h
    apply countDownloadingChunks_eq_zero
    intro c hc
    have := List.any_eq_false.mp h c hc
    simpa using this
  · exact countDownloadingD_dirD hdat

/-- Replacing the `FileDownload` payload at one queue position: effect on the
chunk count. -/
theorem countDownloading_set_file {ds : List Download} {j : Nat} {d : Download}
    {fd : FileDownloadData} (fd' : FileDownloadData)
    (hj : ds[j]? = some d) (hdat : d.dat = .fileD fd) :
    countDownloading (ds.set j { d with dat := .fileD fd' }) + countDownloadingChunks fd.chunks
      = countDownloading ds + countDownloadingChunks fd'.chunks := by
  have hset := countDownloading_set ds j d { d with dat := .fileD fd' } hj
  rw [countDownloadingD_fileD hdat] at hset
  have h0 : countDownloadingD { d with dat := DownloadData.fileD fd' }
      = countDownloadingChunks fd'.chunks := rfl
  omega

/-- Replacing the `FileDownload` payload at one queue position: no effect on the
retrieval count. -/
theorem countRetrieving_set_file {ds : List Download} {j : Nat} {d : Download}
    {fd : FileDownloadData} (fd' : FileDownloadData)
    (hj : ds[j]? = some d) (hdat : d.dat = .fileD fd) :
    countRetrieving (ds.set j { d with dat := .fileD fd' }) = countRetrieving ds := by
  have hset := countRetrieving_set ds j d { d with dat := .fileD fd' } hj
  rw [countRetrievingD_fileD hdat] at hset
  have h0 : countRetrievingD { d with dat := DownloadData.fileD fd' } = 0 := rfl
  omega

theorem chunkFinishedS_spec (s : MState) (j k : Nat) (success : Bool) :
    (chunkFinGuard s j k = false → chunkFinishedS s j k success = s)
  ∧ (chunkFinGuard s j k = true →
      (chunkFinishedS s j k success).numberOfDownload = s.numberOfDownload - 1
    ∧ countDownloading (chunkFinishedS s j k success).downloads + 1
        = countDownloading s.downloads
    ∧ countRetrieving (chunkFinishedS s j k success).downloads
        = countRetrieving s.downloads
    ∧ (chunkFinishedS s j k success).retrievingEntries = s.retrievingEntries
    ∧ (chunkFinishedS s j k success).timerArmed = s.timerArmed) := by
  cases hj : s.downloads[j]? with
  | none =>
    have h1 : chunkFinishedS s j k success = s := by simp [chunkFinishedS, hj]
    have h2 : chunkFinGuard s j k = false := by simp [chunkFinGuard, hj]
    exact ⟨fun _ => h1, fun ht => by rw [h2] at ht; simp at ht⟩
  | some d =>
    rcases hdat : d.dat with fd | r
    · cases hch : fd.chunks[k]? with
      | none =>
        have h1 : chunkFinishedS s j k success = s := by simp [chunkFinishedS, hj, hdat, hch]
        have h2 : chunkFinGuard s j k = false := by simp [chunkFinGuard, hj, hdat, hch]
        exact ⟨fun _ => h1, fun ht => by rw [h2] at ht; simp at ht⟩
      | some st =>
        cases st with
        | DOWNLOADING =>
          have h2 : chunkFinGuard s j k = true := by simp [chunkFinGuard, hj, hdat, hch]
          refine ⟨fun hgf => by rw [h2] at hgf; simp at hgf, fun _ => ?_⟩
          simp only [chunkFinishedS, hj, hdat, hch]
          refine ⟨by trivial, ?_, ?_, by trivial, by trivial⟩
          · have hset := countDownloading_set_file ({ fd with chunks := fd.chunks.set k (if success = true then ChunkStatus.COMPLETE else ChunkStatus.FAILED) }) hj hdat
            have hchk := countDownloadingChunks_set fd.chunks k ChunkStatus.DOWNLOADING (if success = true then ChunkStatus.COMPLETE else ChunkStatus.FAILED) hch
            have hchk2 : countDownloadingChunks (fd.chunks.set k (if success = true then ChunkStatus.COMPLETE else ChunkStatus.FAILED)) + 1 = countDownloadingChunks fd.chunks := by
              cases success with
              | true => simpa using hchk
              | false => simpa using hchk
            have hcc : countDownloadingChunks ({ fd with chunks := fd.chunks.set k (if success = true then ChunkStatus.COMPLETE else ChunkStatus.FAILED) : FileDownloadData }).chunks = countDownloadingChunks (fd.chunks.set k (if success = true then ChunkStatus.COMPLETE else ChunkStatus.FAILED)) := rfl
            omega
          · exact countRetrieving_set_file ({ fd with chunks := fd.chunks.set k (if success = true then ChunkStatus.COMPLETE else ChunkStatus.FAILED) }) hj hdat
        | IDLE =>
          have h1 : chunkFinishedS s j k success = s := by simp [chunkFinishedS, hj, hdat, hch]
          have h2 : chunkFinGuard s j k = false := by simp [chunkFinGuard, hj, hdat, hch]
          exact ⟨fun _ => h1, fun ht => by rw [h2] at ht; simp at ht⟩
        | COMPLETE =>
          have h1 : chunkFinishedS s j k success = s := by simp [chunkFinishedS, hj, hdat, hch]
          have h2 : chunkFinGuard s j k = false := by simp [chunkFinGuard, hj, hdat, hch]
          exact ⟨fun _ => h1, fun ht => by rw [h2] at ht; simp at ht⟩
        | FAILED =>
          have h1 : chunkFinishedS s j k success = s := by simp [chunkFinishedS, hj, hdat, hch]
          have h2 : chunkFinGuard s j k = false := by simp [chunkFinGuard, hj, hdat, hch]
          exact ⟨fun _ => h1, fun ht => by rw [h2] at ht; simp at ht⟩
    · have h1 : chunkFinishedS s j k success = s := by simp [chunkFinishedS, hj, hdat]
      have h2 : chunkFinGuard s j k = false := by simp [chunkFinGuard, hj, hdat]
      exact ⟨fun _ => h1, fun ht => by rw [h2] at ht; simp at ht⟩

theorem setStatusS_spec (s : MState) (j : Nat) (st : Nat) :
    (setStatusS s j st).numberOfDownload = s.numberOfDownload
  ∧ countDownloading (setStatusS s j st).downloads = countDownloading s.downloads
  ∧ countRetrieving (setStatusS s j st).downloads = countRetrieving s.downloads
  ∧ (setStatusS s j st).retrievingEntries = s.retrievingEntries
  ∧ (setStatusS s j st).timerArmed = s.timerArmed := by
  cases hj : s.downloads[j]? with
  | none => simp [setStatusS, hj]
  | some d =>
    rcases hdat : d.dat with fd | r
    · simp only [setStatusS, hj, hdat]
      refine ⟨by trivial, ?_, ?_, by trivial, by trivial⟩
      · have hset := countDownloading_set_file ({ fd with status := st }) hj hdat
        have hcc : countDownloadingChunks ({ fd with status := st : FileDownloadData }).chunks = countDownloadingChunks fd.chunks := rfl
        omega
      · exact countRetrieving_set_file ({ fd with status := st }) hj hdat
    · simp [setStatusS, hj, hdat]

theorem addChunkS_spec (s : MState) (j : Nat) :
    (addChunkS s j).numberOfDownload = s.numberOfDownload
  ∧ countDownloading (addChunkS s j).downloads = countDownloading s.downloads
  ∧ countRetrieving (addChunkS s j).downloads = countRetrieving s.downloads
  ∧ (addChunkS s j).retrievingEntries = s.retrievingEntries
  ∧ (addChunkS s j).timerArmed = s.timerArmed := by
  cases hj : s.downloads[j]? with
  | none => simp [addChunkS, hj]
  | some d =>
    rcases hdat : d.dat with fd | r
    · simp only [addChunkS, hj, hdat]
      refine ⟨by trivial, ?_, ?_, by trivial, by trivial⟩
      · have hset := countDownloading_set_file ({ fd with chunks := fd.chunks ++ [ChunkStatus.IDLE] }) hj hdat
        have happ := countDownloadingChunks_append fd.chunks [ChunkStatus.IDLE]
        have hone : countDownloadingChunks [ChunkStatus.IDLE] = 0 := rfl
        have hcc : countDownloadingChunks ({ fd with chunks := fd.chunks ++ [ChunkStatus.IDLE] : FileDownloadData }).chunks = countDownloadingChunks (fd.chunks ++ [ChunkStatus.IDLE]) := rfl
        omega
      · exact countRetrieving_set_file ({ fd with chunks := fd.chunks ++ [ChunkStatus.IDLE] }) hj hdat
    · simp [addChunkS, hj, hdat]

theorem chunkRetryS_spec (s : MState) (j k : Nat) :
    (chunkRetryS s j k).numberOfDownload = s.numberOfDownload
  ∧ countDownloading (chunkRetryS s j k).downloads = countDownloading s.downloads
  ∧ countRetrieving (chunkRetryS s j k).downloads = countRetrieving s.downloads
  ∧ (chunkRetryS s j k).retrievingEntries = s.retrievingEntries
  ∧ (chunkRetryS s j k).timerArmed = s.timerArmed := by
  cases hj : s.downloads[j]? with
  | none => simp [chunkRetryS, hj]
  | some d =>
    rcases hdat : d.dat with fd | r
    · cases hch : fd.chunks[k]? with
      | none => simp [chunkRetryS, hj, hdat, hch]
      | some cst =>
        cases cst with
        | FAILED =>
          simp only [chunkRetryS, hj, hdat, hch]
          refine ⟨by trivial, ?_, ?_, by trivial, by trivial⟩
          · have hset := countDownloading_set_file ({ fd with chunks := fd.chunks.set k ChunkStatus.IDLE }) hj hdat
            have hchk := countDownloadingChunks_set fd.chunks k ChunkStatus.FAILED ChunkStatus.IDLE hch
            have hchk2 : countDownloadingChunks (fd.chunks.set k ChunkStatus.IDLE) = countDownloadingChunks fd.chunks := by simpa using hchk
            have hcc : countDownloadingChunks ({ fd with chunks := fd.chunks.set k ChunkStatus.IDLE : FileDownloadData }).chunks = countDownloadingChunks (fd.chunks.set k ChunkStatus.IDLE) := rfl
            omega
          · exact countRetrieving_set_file ({ fd with chunks := fd.chunks.set k ChunkStatus.IDLE }) hj hdat
        | IDLE => simp [chunkRetryS, hj, hdat, hch]
        | DOWNLOADING => simp [chunkRetryS, hj, hdat, hch]
        | COMPLETE => simp [chunkRetryS, hj, hdat, hch]
    · simp [chunkRetryS, hj, hdat]

theorem downloadDeletedS_spec (s : MState) (j : Nat) :
    (downloadDeletedS s j).numberOfDownload = s.numberOfDownload
  ∧ countDownloading (downloadDeletedS s j).downloads = countDownloading s.downloads
  ∧ countRetrieving (downloadDeletedS s j).downloads ≤ countRetrieving s.downloads
  ∧ (downloadDeletedS s j).retrievingEntries = s.retrievingEntries
  ∧ (downloadDeletedS s j).timerArmed = s.timerArmed := by
  cases hj : s.downloads[j]? with
  | none => simp [downloadDeletedS, hj]
  | some d =>
    cases hdl : hasDownloadingChunk d with
    | true => simp [downloadDeletedS, hj, hdl]
    | false =>
      simp only [downloadDeletedS, hj, hdl, Bool.false_eq_true, if_false]
      refine ⟨by trivial, ?_, ?_, by trivial, by trivial⟩
      · have hrem := countDownloading_removeAt s.downloads j d hj
        have h0 : countDownloadingD d = 0 := hasDownloadingChunk_false_count hdl
        omega
      · have hrem := countRetrieving_removeAt s.downloads j d hj
        omega

end DM

namespace DM

/-- The child-replay loop of `newEntries` keeps the counter, the chunk count and
the timer, and preserves the retrieval invariant. -/
theorem replayChildrenS_master (children : List Entry) :
    ∀ (s : MState) (pos peer : Nat),
      (replayChildrenS s pos peer children).numberOfDownload = s.numberOfDownload
    ∧ countDownloading (replayChildrenS s pos peer children).downloads
        = countDownloading s.downloads
    ∧ (RInv s → RInv (replayChildrenS s pos peer children))
    ∧ (replayChildrenS s pos peer children).timerArmed = s.timerArmed := by
  induction children with
  | nil => intro s pos peer; exact ⟨rfl, rfl, id, rfl⟩
  | cons c cs ih =>
    intro s pos peer
    have hm := addDownloadAtS_master s pos c peer false
    rw [replayChildrenS]
    rcases hsplit : addDownloadAtS s pos c peer false with ⟨s', inserted⟩
    rw [hsplit] at hm
    simp only at hm
    dsimp only
    obtain ⟨ihm1, ihm2, ihm3, ihm4⟩ := ih s' (if inserted = true then pos + 1 else pos) peer
    exact ⟨by rw [ihm1, hm.1], by rw [ihm2, hm.2.1],
      fun hr => ihm3 (hm.2.2.1 hr), by rw [ihm4, hm.2.2.2]⟩

/-- `newEntries` for the retrieving `DirDownload` at position `j`: the counter,
the chunk count and the timer are unchanged, and the retrieval invariant is
re-established (the sender's flag leaves the queue with it, and the re-entered
scan raises at most one new flag). -/
theorem newEntriesS_master (s : MState) (j : Nat) (children : List Entry) (d : Download)
    (hj : s.downloads[j]? = some d) (hd : d.dat = .dirD true)
    (hr : RInv s) :
    (newEntriesS s j children).numberOfDownload = s.numberOfDownload
  ∧ countDownloading (newEntriesS s j children).downloads = countDownloading s.downloads
  ∧ RInv (newEntriesS s j children)
  ∧ (newEntriesS s j children).timerArmed = s.timerArmed := by
  unfold newEntriesS
  rw [hj]
  dsimp only
  rw [hd]
  dsimp only
  have hrd : countRetrievingD d = 1 := countRetrievingD_dirD_true hd
  have hremR := countRetrieving_removeAt s.downloads j d hj
  have hremD := countDownloading_removeAt s.downloads j d hj
  have hdD : countDownloadingD d = 0 := countDownloadingD_dirD hd
  have hs1R : countRetrieving (removeAt s.downloads j) = 0 := by
    have h1 := hr.1
    omega
  have hs1D : countDownloading (removeAt s.downloads j) = countDownloading s.downloads := by
    omega
  obtain ⟨hm1, hm2, hm3, hm4⟩ := replayChildrenS_master children
    { s with retrievingEntries := false, downloads := removeAt s.downloads j } j d.peerSource
  refine ⟨?_, ?_, ?_, ?_⟩
  · rw [scanRetrieve_counter, hm1]
  · rw [scanRetrieve_countDownloading, hm2]
    simp
    exact hs1D
  · exact scanRetrieve_RInv _ (hm3 ⟨by simp [hs1R], fun _ => by simp; exact hs1R⟩)
  · rw [scanRetrieve_timer, hm4]

/-- Every transition preserves the manager invariant. -/
theorem applyStep_Inv (N : Nat) (s : MState) (st : Step) (h : Inv N s) :
    Inv N (applyStep N s st) := by
  obtain ⟨h1, h2, h3⟩ := h
  cases st with
  | addTail e p c =>
    obtain ⟨hm1, hm2, hm3, _⟩ := addDownloadAtS_master s s.downloads.length e p c
    exact ⟨by rw [applyStep, addDownloadTailS, hm1, hm2, h1], by rw [applyStep, addDownloadTailS, hm1]; exact h2,
      hm3 h3⟩
  | newEnts j children =>
    cases hj : s.downloads[j]? with
    | none =>
      have he : applyStep N s (Step.newEnts j children) = s := by simp [applyStep, hj]
      rw [he]
      exact ⟨h1, h2, h3⟩
    | some d =>
      rcases hd : d.dat with fd | r
      · have he : applyStep N s (Step.newEnts j children) = s := by simp [applyStep, hj, hd]
        rw [he]
        exact ⟨h1, h2, h3⟩
      · cases r with
        | false =>
          have he : applyStep N s (Step.newEnts j children) = s := by simp [applyStep, hj, hd]
          rw [he]
          exact ⟨h1, h2, h3⟩
        | true =>
          have he : applyStep N s (Step.newEnts j children) = newEntriesS s j children := by
            simp [applyStep, hj, hd]
          rw [he]
          obtain ⟨hm1, hm2, hm3, _⟩ := newEntriesS_master s j children d hj hd h3
          exact ⟨by rw [hm1, hm2, h1], by rw [hm1]; exact h2, hm3⟩
  | scan oracle =>
    obtain ⟨hg1, hg2, hg3, hg4, _⟩ := scanGo_spec N s.downloads oracle s.numberOfDownload
    refine ⟨?_, ?_, ?_, ?_⟩
    · show (scanGo N s.downloads oracle s.numberOfDownload).counter
        = (countDownloading (scanGo N s.downloads oracle s.numberOfDownload).downloads : Int)
      rw [hg1, hg2, h1]
      push_cast
      omega
    · show (scanGo N s.downloads oracle s.numberOfDownload).counter ≤ (N : Int)
      exact hg3 h2
    · show countRetrieving (scanGo N s.downloads oracle s.numberOfDownload).downloads ≤ 1
      rw [hg4]
      exact h3.1
    · intro hflag
      show countRetrieving (scanGo N s.downloads oracle s.numberOfDownload).downloads = 0
      rw [hg4]
      exact h3.2 hflag
  | chunkFin j k success =>
    show Inv N (chunkFinishedS s j k success)
    obtain ⟨hf, ht⟩ := chunkFinishedS_spec s j k success
    cases hguard : chunkFinGuard s j k with
    | false =>
      rw [hf hguard]
      exact ⟨h1, h2, h3⟩
    | true =>
      obtain ⟨ht1, ht2, ht3, ht4, _⟩ := ht hguard
      refine ⟨?_, ?_, ?_, ?_⟩
      · show (chunkFinishedS s j k success).numberOfDownload = _
        rw [ht1, h1]
        omega
      · show (chunkFinishedS s j k success).numberOfDownload ≤ (N : Int)
        rw [ht1]
        omega
      · show countRetrieving (chunkFinishedS s j k success).downloads ≤ 1
        rw [ht3]
        exact h3.1
      · intro hflag
        show countRetrieving (chunkFinishedS s j k success).downloads = 0
        rw [ht3]
        refine h3.2 ?_
        rw [← ht4]
        exact hflag
  | chunkRetry j k =>
    obtain ⟨hm1, hm2, hm3, hm4, _⟩ := chunkRetryS_spec s j k
    exact ⟨by rw [applyStep, hm1, hm2, h1], by rw [applyStep, hm1]; exact h2,
      by rw [applyStep]; exact ⟨by rw [hm3]; exact h3.1, fun hf => by rw [hm3]; exact h3.2 (by rw [← hm4]; exact hf)⟩⟩
  | setStatus j st =>
    obtain ⟨hm1, hm2, hm3, hm4, _⟩ := setStatusS_spec s j st
    exact ⟨by rw [applyStep, hm1, hm2, h1], by rw [applyStep, hm1]; exact h2,
      by rw [applyStep]; exact ⟨by rw [hm3]; exact h3.1, fun hf => by rw [hm3]; exact h3.2 (by rw [← hm4]; exact hf)⟩⟩
  | addChunk j =>
    obtain ⟨hm1, hm2, hm3, hm4, _⟩ := addChunkS_spec s j
    exact ⟨by rw [applyStep, hm1, hm2, h1], by rw [applyStep, hm1]; exact h2,
      by rw [applyStep]; exact ⟨by rw [hm3]; exact h3.1, fun hf => by rw [hm3]; exact h3.2 (by rw [← hm4]; exact hf)⟩⟩
  | del j =>
    obtain ⟨hm1, hm2, hm3, hm4, _⟩ := downloadDeletedS_spec s j
    refine ⟨by rw [applyStep, hm1, hm2, h1], by rw [applyStep, hm1]; exact h2, ?_, ?_⟩
    · show countRetrieving (downloadDeletedS s j).downloads ≤ 1
      exact Nat.le_trans hm3 h3.1
    · intro hflag
      show countRetrieving (downloadDeletedS s j).downloads = 0
      have := h3.2 (by rw [← hm4]; exact hflag)
      omega

end DM

namespace DM

/-- Counter accounting of one step: exactly the scan's successful
`startDownloading` calls increment, exactly a guarded `chunkDownloadFinished`
decrements. -/
theorem applyStep_counter (N : Nat) (s : MState) (st : Step) :
    (applyStep N s st).numberOfDownload
      = s.numberOfDownload + (stepIncs N s st : Int) - (stepDecs N s st : Int) := by
  cases st with
  | addTail e p c =>
    obtain ⟨hm1, _, _, _⟩ := addDownloadAtS_master s s.downloads.length e p c
    show (addDownloadTailS s e p c).numberOfDownload = _
    have hi : stepIncs N s (Step.addTail e p c) = 0 := rfl
    have hd2 : stepDecs N s (Step.addTail e p c) = 0 := rfl
    rw [addDownloadTailS, hm1, hi, hd2]
    omega
  | newEnts j children =>
    have hsd : stepIncs N s (Step.newEnts j children) = 0 := rfl
    have hsd2 : stepDecs N s (Step.newEnts j children) = 0 := rfl
    rw [hsd, hsd2]
    cases hj : s.downloads[j]? with
    | none =>
      have he : applyStep N s (Step.newEnts j children) = s := by simp [applyStep, hj]
      rw [he]
      omega
    | some d =>
      rcases hd : d.dat with fd | r
      · have he : applyStep N s (Step.newEnts j children) = s := by simp [applyStep, hj, hd]
        rw [he]
        omega
      · cases r with
        | false =>
          have he : applyStep N s (Step.newEnts j children) = s := by simp [applyStep, hj, hd]
          rw [he]
          omega
        | true =>
          have he : applyStep N s (Step.newEnts j children) = newEntriesS s j children := by
            simp [applyStep, hj, hd]
          rw [he]
          have hrem := countRetrieving_removeAt s.downloads j d hj
          obtain ⟨hm1, _, _, _⟩ := replayChildrenS_master children
            { s with retrievingEntries := false, downloads := removeAt s.downloads j } j
            d.peerSource
          unfold newEntriesS
          rw [hj]
          dsimp only
          rw [hd]
          dsimp only
          rw [scanRetrieve_counter, hm1]
          show s.numberOfDownload = _
          omega
  | scan oracle =>
    obtain ⟨hg1, _, _, _, _⟩ := scanGo_spec N s.downloads oracle s.numberOfDownload
    show (scanGo N s.downloads oracle s.numberOfDownload).counter = _
    have hi : stepIncs N s (Step.scan oracle)
        = (scanGo N s.downloads oracle s.numberOfDownload).nStarts := rfl
    have hd2 : stepDecs N s (Step.scan oracle) = 0 := rfl
    rw [hg1, hi, hd2]
    omega
  | chunkFin j k success =>
    show (chunkFinishedS s j k success).numberOfDownload = _
    obtain ⟨hf, ht⟩ := chunkFinishedS_spec s j k success
    have hi : stepIncs N s (Step.chunkFin j k success) = 0 := rfl
    have hd2 : stepDecs N s (Step.chunkFin j k success)
        = (if chunkFinGuard s j k then 1 else 0) := rfl
    cases hguard : chunkFinGuard s j k with
    | false =>
      rw [hf hguard, hi, hd2, hguard]
      simp
    | true =>
      obtain ⟨ht1, _, _, _, _⟩ := ht hguard
      rw [ht1, hi, hd2, hguard]
      simp
  | chunkRetry j k =>
    obtain ⟨hm1, _, _, _, _⟩ := chunkRetryS_spec s j k
    show (chunkRetryS s j k).numberOfDownload = _
    have hi : stepIncs N s (Step.chunkRetry j k) = 0 := rfl
    have hd2 : stepDecs N s (Step.chunkRetry j k) = 0 := rfl
    rw [hm1, hi, hd2]
    omega
  | setStatus j st =>
    obtain ⟨hm1, _, _, _, _⟩ := setStatusS_spec s j st
    show (setStatusS s j st).numberOfDownload = _
    have hi : stepIncs N s (Step.setStatus j st) = 0 := rfl
    have hd2 : stepDecs N s (Step.setStatus j st) = 0 := rfl
    rw [hm1, hi, hd2]
    omega
  | addChunk j =>
    obtain ⟨hm1, _, _, _, _⟩ := addChunkS_spec s j
    show (addChunkS s j).numberOfDownload = _
    have hi : stepIncs N s (Step.addChunk j) = 0 := rfl
    have hd2 : stepDecs N s (Step.addChunk j) = 0 := rfl
    rw [hm1, hi, hd2]
    omega
  | del j =>
    obtain ⟨hm1, _, _, _, _⟩ := downloadDeletedS_spec s j
    show (downloadDeletedS s j).numberOfDownload = _
    have hi : stepIncs N s (Step.del j) = 0 := rfl
    have hd2 : stepDecs N s (Step.del j) = 0 := rfl
    rw [hm1, hi, hd2]
    omega

theorem runTrace_Inv (N : Nat) (tr : List Step) :
    ∀ s : MState, Inv N s → Inv N (runTrace N s tr) := by
  induction tr with
  | nil => intro s h; exact h
  | cons st tr ih =>
    intro s h
    exact ih (applyStep N s st) (applyStep_Inv N s st h)

theorem runTrace_counter (N : Nat) (tr : List Step) :
    ∀ s : MState,
      (runTrace N s tr).numberOfDownload
        = s.numberOfDownload + (traceIncs N s tr : Int) - (traceDecs N s tr : Int) := by
  induction tr with
  | nil => intro s; simp [runTrace, traceIncs, traceDecs]
  | cons st tr ih =>
    intro s
    rw [runTrace, traceIncs, traceDecs, ih (applyStep N s st), applyStep_counter N s st]
    push_cast
    omega

theorem Inv_initState (N : Nat) : Inv N initState :=
  ⟨rfl, by show (0 : Int) ≤ (N : Int); exact_mod_cast Nat.zero_le N,
    by show countRetrieving [] ≤ 1; simp [countRetrieving], fun _ => rfl⟩

/-- C1: along every execution the global download counter equals the number of
`ChunkDownload`s in the `DOWNLOADING` state, is non-negative, never exceeds the
configured `NUMBER_OF_DOWNLOADER`, and the total number of increments
(successful `startDownloading` calls in `scanTheQueue`) equals the total number
of decrements (in `chunkDownloadFinished`) plus the currently-downloading
count. -/
theorem C1_counter_invariant (N : Nat) (tr : List Step) :
    (runTrace N initState tr).numberOfDownload
        = (countDownloading (runTrace N initState tr).downloads : Int)
  ∧ 0 ≤ (runTrace N initState tr).numberOfDownload
  ∧ (runTrace N initState tr).numberOfDownload ≤ (N : Int)
  ∧ (traceIncs N initState tr : Int)
      = (traceDecs N initState tr : Int) + (runTrace N initState tr).numberOfDownload := by
  obtain ⟨h1, h2, _⟩ := runTrace_Inv N tr initState (Inv_initState N)
  refine ⟨h1, ?_, h2, ?_⟩
  · rw [h1]
    exact_mod_cast Int.ofNat_nonneg _
  · have hc := runTrace_counter N tr initState
    have h0 : initState.numberOfDownload = 0 := rfl
    omega

theorem setFirstDir_of_prefix :
    ∀ (pre : List Download) (d : Download) (post : List Download),
      (∀ x ∈ pre, isDirDownload x = false) → isDirDownload d = true →
      setFirstDirRetrieving (pre ++ d :: post)
        = some (pre ++ { d with dat := .dirD true } :: post) := by
  intro pre
  induction pre with
  | nil =>
    intro d post _ hd
    rcases hdat : d.dat with fd | r
    · rw [isDirDownload, hdat] at hd
      simp at hd
    · simp [setFirstDirRetrieving, hdat]
  | cons x rest ih =>
    intro d post hpre hd
    rcases hx : x.dat with fd | r
    · rw [List.cons_append, setFirstDirRetrieving, hx]
      rw [ih d post (fun y hy => hpre y (by simp [hy])) hd]
      rfl
    · have := hpre x (by simp)
      rw [isDirDownload, hx] at this
      simp at this

/-- C6: at every reachable state at most one `DirDownload` is retrieving (none
when the manager flag is down); `scanTheQueueToRetrieveEntries` returns
immediately when a retrieval is in flight, and otherwise triggers exactly the
first `DirDownload` of the queue and sets the flag. -/
theorem C6_single_dir_retrieval (N : Nat) (tr : List Step) :
    countRetrieving (runTrace N initState tr).downloads ≤ 1
  ∧ ((runTrace N initState tr).retrievingEntries = false →
      countRetrieving (runTrace N initState tr).downloads = 0)
  ∧ (∀ s : MState, s.retrievingEntries = true → scanTheQueueToRetrieveEntries s = s)
  ∧ (∀ (s : MState) (pre : List Download) (d : Download) (post : List Download),
      s.retrievingEntries = false →
      s.downloads = pre ++ d :: post →
      (∀ x ∈ pre, isDirDownload x = false) → isDirDownload d = true →
      scanTheQueueToRetrieveEntries s
        = { s with downloads := pre ++ { d with dat := .dirD true } :: post,
                   retrievingEntries := true }) := by
  obtain ⟨_, _, h3⟩ := runTrace_Inv N tr initState (Inv_initState N)
  refine ⟨h3.1, h3.2, ?_, ?_⟩
  · intro s hs
    unfold scanTheQueueToRetrieveEntries
    rw [if_pos hs]
  · intro s pre d post hflag hq hpre hd
    unfold scanTheQueueToRetrieveEntries
    rw [if_neg (by rw [hflag]; simp), hq, setFirstDir_of_prefix pre d post hpre hd]

/-- Witness for C6 at a concrete trace and concrete states. -/
theorem C6_single_dir_retrieval_witness :
    countRetrieving (runTrace 2 initState
      [Step.addTail ⟨.DIR, "", "d", 0, false⟩ 9 false]).downloads ≤ 1
  ∧ scanTheQueueToRetrieveEntries
      { downloads := [], retrievingEntries := true, numberOfDownload := 0, timerArmed := false }
      = { downloads := [], retrievingEntries := true, numberOfDownload := 0,
          timerArmed := false }
  ∧ scanTheQueueToRetrieveEntries
      { downloads := [mkDownload ⟨.FILE, "", "a", 1, false⟩ 7 false,
                      mkDownload ⟨.DIR, "", "d", 0, false⟩ 9 false],
        retrievingEntries := false, numberOfDownload := 0, timerArmed := false }
      = { downloads := [mkDownload ⟨.FILE, "", "a", 1, false⟩ 7 false,
            { mkDownload ⟨.DIR, "", "d", 0, false⟩ 9 false with dat := .dirD true }],
          retrievingEntries := true, numberOfDownload := 0, timerArmed := false } := by
  have h := C6_single_dir_retrieval 2 [Step.addTail ⟨.DIR, "", "d", 0, false⟩ 9 false]
  refine ⟨h.1, h.2.2.1 _ rfl, ?_⟩
  have h4 := h.2.2.2
    { downloads := [mkDownload ⟨.FILE, "", "a", 1, false⟩ 7 false,
                    mkDownload ⟨.DIR, "", "d", 0, false⟩ 9 false],
      retrievingEntries := false, numberOfDownload := 0, timerArmed := false }
    [mkDownload ⟨.FILE, "", "a", 1, false⟩ 7 false]
    (mkDownload ⟨.DIR, "", "d", 0, false⟩ 9 false)
    []
    rfl rfl (by decide) (by decide)
  exact h4

end DM

namespace DM

theorem scanGo_nStarts_zero (ds : List Download) (oracle : List (Option Nat)) (c : Int)
    (hc : 0 ≤ c) : (scanGo 0 ds oracle c).nStarts = 0 := by
  cases ds with
  | nil => rfl
  | cons d rest =>
    rw [scanGo, if_neg (by push_cast; omega)]

theorem chunkFinGuard_count {s : MState} {j k : Nat}
    (h : chunkFinGuard s j k = true) : 1 ≤ countDownloading s.downloads := by
  unfold chunkFinGuard at h
  cases hj : s.downloads[j]? with
  | none => rw [hj] at h; simp at h
  | some d =>
    simp only [hj] at h
    rcases hdat : d.dat with fd | r
    · simp only [hdat] at h
      cases hch : fd.chunks[k]? with
      | none => simp [hch] at h
      | some st =>
        cases st with
        | DOWNLOADING =>
          have h1 : 1 ≤ countDownloadingChunks fd.chunks := countDownloadingChunks_pos hch
          have h2 := countDownloadingD_le hj
          rw [countDownloadingD_fileD hdat] at h2
          omega
        | IDLE => simp [hch] at h
        | COMPLETE => simp [hch] at h
        | FAILED => simp [hch] at h
    · simp [hdat] at h

theorem traceIncsDecs_zero (tr : List Step) :
    ∀ s : MState, Inv 0 s → traceIncs 0 s tr = 0 ∧ traceDecs 0 s tr = 0 := by
  induction tr with
  | nil => intro s _; exact ⟨rfl, rfl⟩
  | cons st tr ih =>
    intro s h
    have hzero : s.numberOfDownload = 0 := by
      obtain ⟨h1, h2, _⟩ := h
      have : (0 : Int) ≤ (countDownloading s.downloads : Int) := by positivity
      omega
    have hstep := ih (applyStep 0 s st) (applyStep_Inv 0 s st h)
    constructor
    · rw [traceIncs, hstep.1]
      have hi : stepIncs 0 s st = 0 := by
        cases st with
        | scan oracle =>
          show (scanGo 0 s.downloads oracle s.numberOfDownload).nStarts = 0
          exact scanGo_nStarts_zero s.downloads oracle s.numberOfDownload (by omega)
        | addTail e p c => rfl
        | newEnts j children => rfl
        | chunkFin j k success => rfl
        | chunkRetry j k => rfl
        | setStatus j st2 => rfl
        | addChunk j => rfl
        | del j => rfl
      omega
    · rw [traceDecs, hstep.2]
      have hd2 : stepDecs 0 s st = 0 := by
        cases st with
        | chunkFin j k success =>
          show (if chunkFinGuard s j k then 1 else 0) = 0
          cases hguard : chunkFinGuard s j k with
          | false => rfl
          | true =>
            have hge := chunkFinGuard_count hguard
            obtain ⟨h1, h2, _⟩ := h
            have : s.numberOfDownload = 0 := by omega
            omega
        | addTail e p c => rfl
        | newEnts j children => rfl
        | scan oracle => rfl
        | chunkRetry j k => rfl
        | setStatus j st2 => rfl
        | addChunk j => rfl
        | del j => rfl
      omega

theorem isDirDownload_mkDownload {e : Entry} (p : Nat) (c : Bool)
    (h : e.type = EntryType.DIR) : isDirDownload (mkDownload e p c) = true := by
  unfold mkDownload
  rw [h]
  rfl

theorem setFirstDir_some_of_any :
    ∀ ds : List Download, ds.any isDirDownload = true →
      ∃ ds', setFirstDirRetrieving ds = some ds' := by
  intro ds
  induction ds with
  | nil => intro h; simp at h
  | cons d rest ih =>
    intro h
    rcases hd : d.dat with fd | r
    · rw [List.any_cons, isDirDownload, hd] at h
      simp only [Bool.false_or] at h
      obtain ⟨rest', hrest⟩ := ih h
      rw [setFirstDirRetrieving, hd, hrest]
      exact ⟨d :: rest', rfl⟩
    · rw [setFirstDirRetrieving, hd]
      exact ⟨_, rfl⟩

/-- C8: with `number_of_downloader = 0` no chunk ever enters `DOWNLOADING`
(counter and `DOWNLOADING` count stay 0 along every execution, and
`scanTheQueue` never performs a successful `startDownloading`), while queueing a
directory entry still triggers `scanTheQueueToRetrieveEntries`, which starts the
retrieval (the directory-resolution path does not consult the cap). -/
theorem C8_zero_downloaders (tr : List Step) :
    (runTrace 0 initState tr).numberOfDownload = 0
  ∧ countDownloading (runTrace 0 initState tr).downloads = 0
  ∧ traceIncs 0 initState tr = 0
  ∧ (∀ (s : MState) (e : Entry) (p : Nat) (c : Bool),
      s.retrievingEntries = false → e.type = EntryType.DIR →
      isEntryAlreadyQueued s.downloads e = false →
      (applyStep 0 s (.addTail e p c)).retrievingEntries = true) := by
  obtain ⟨h1, h2, _⟩ := runTrace_Inv 0 tr initState (Inv_initState 0)
  have hcnt : countDownloading (runTrace 0 initState tr).downloads = 0 := by
    have : (0 : Int) ≤ (countDownloading (runTrace 0 initState tr).downloads : Int) := by
      positivity
    omega
  refine ⟨by omega, hcnt, (traceIncsDecs_zero tr initState (Inv_initState 0)).1, ?_⟩
  intro s e p c hflag het hfresh
  show (addDownloadTailS s e p c).retrievingEntries = true
  unfold addDownloadTailS addDownloadAtS
  rw [hfresh]
  simp only [Bool.false_eq_true, if_false]
  rw [het]
  dsimp only
  have hany : (insertAt s.downloads s.downloads.length (mkDownload e p c)).any isDirDownload
      = true := by
    rw [insertAt_length_self, List.any_append]
    simp [isDirDownload_mkDownload p c het]
  obtain ⟨ds', hds'⟩ := setFirstDir_some_of_any _ hany
  unfold scanTheQueueToRetrieveEntries
  rw [if_neg (by simpa using hflag)]
  rw [hds']

/-- Witness for C8: a trace that queues a file and scans under a zero cap, and a
directory enqueue that triggers retrieval. -/
theorem C8_zero_downloaders_witness :
    (runTrace 0 initState
      [Step.addTail ⟨.FILE, "", "a", 1, false⟩ 7 false, Step.addChunk 0,
       Step.scan [some 0]]).numberOfDownload = 0
  ∧ countDownloading (runTrace 0 initState
      [Step.addTail ⟨.FILE, "", "a", 1, false⟩ 7 false, Step.addChunk 0,
       Step.scan [some 0]]).downloads = 0
  ∧ (applyStep 0 initState
      (.addTail ⟨.DIR, "", "d", 0, false⟩ 9 false)).retrievingEntries = true := by
  have h := C8_zero_downloaders
    [Step.addTail ⟨.FILE, "", "a", 1, false⟩ 7 false, Step.addChunk 0, Step.scan [some 0]]
  exact ⟨h.1, h.2.1, h.2.2.2 initState ⟨.DIR, "", "d", 0, false⟩ 9 false rfl rfl (by decide)⟩

/-- C7: a soft-error status (`>= 0x20`) seen during `scanTheQueue` arms the
single-shot rescan timer configured with `RESCAN_QUEUE_PERIOD_IF_ERROR`, and
the loop does not stop there: as long as the concurrency budget is not
exhausted every download of the queue is examined (the timer ends up armed iff
some `FileDownload` anywhere in the queue is soft-failed), and the counter
still advances by every successful start. -/
theorem C7_soft_error_rescan (N rescanPeriod : Nat) (ds : List Download)
    (oracle : List (Option Nat)) (c : Int) (s : MState) :
    ((scanGo N ds oracle c).counter < (N : Int) →
        (scanGo N ds oracle c).soft = ds.any softStatus)
  ∧ (scanGo N ds oracle c).counter = c + ((scanGo N ds oracle c).nStarts : Int)
  ∧ (initTimer rescanPeriod).singleShot = true
  ∧ (initTimer rescanPeriod).interval = rescanPeriod
  ∧ (scanTheQueueS s N oracle).timerArmed
      = (s.timerArmed || (scanGo N s.downloads oracle s.numberOfDownload).soft) := by
  obtain ⟨h1, _, _, _, h5⟩ := scanGo_spec N ds oracle c
  exact ⟨h5, h1, rfl, rfl, rfl⟩

/-- Witness for C7: a queue holding a soft-failed file followed by a startable
file; the scan arms the timer and still starts the later chunk. -/
theorem C7_soft_error_rescan_witness :
    (scanGo 2 [⟨⟨.FILE, "", "a", 1, false⟩, 7, false, .fileD ⟨0x20, []⟩⟩,
               ⟨⟨.FILE, "", "b", 2, false⟩, 7, false, .fileD ⟨0, [.IDLE]⟩⟩]
      [none, some 0] 0).soft
      = ([⟨⟨.FILE, "", "a", 1, false⟩, 7, false, .fileD ⟨0x20, []⟩⟩,
          ⟨⟨.FILE, "", "b", 2, false⟩, 7, false, .fileD ⟨0, [.IDLE]⟩⟩] :
          List Download).any softStatus
  ∧ (scanGo 2 [⟨⟨.FILE, "", "a", 1, false⟩, 7, false, .fileD ⟨0x20, []⟩⟩,
               ⟨⟨.FILE, "", "b", 2, false⟩, 7, false, .fileD ⟨0, [.IDLE]⟩⟩]
      [none, some 0] 0).nStarts = 1
  ∧ (initTimer 5).singleShot = true := by
  have h := C7_soft_error_rescan 2 5
    [⟨⟨.FILE, "", "a", 1, false⟩, 7, false, .fileD ⟨0x20, []⟩⟩,
     ⟨⟨.FILE, "", "b", 2, false⟩, 7, false, .fileD ⟨0, [.IDLE]⟩⟩]
    [none, some 0] 0 initState
  exact ⟨h.1 (by decide), by decide, h.2.2.1⟩

end DM

namespace FMCache

theorem totalFileSize_node (sz : Int) (fs : List CFile) (subs : List DirTree) :
    totalFileSize (.node sz fs subs) = (fs.map CFile.fsize).sum + totalFileSizeList subs := by
  rw [totalFileSize]

theorem totalFileSizeList_cons (d : DirTree) (ds : List DirTree) :
    totalFileSizeList (d :: ds) = totalFileSize d + totalFileSizeList ds := by
  rw [totalFileSizeList]

theorem goodb_node (sz : Int) (fs : List CFile) (subs : List DirTree) :
    goodb (.node sz fs subs) = true
      ↔ sz = (fs.map CFile.fsize).sum + totalFileSizeList subs ∧ goodbList subs = true := by
  rw [goodb]
  simp [Bool.and_eq_true, decide_eq_true_eq]

theorem goodbList_cons (d : DirTree) (ds : List DirTree) :
    goodbList (d :: ds) = true ↔ goodb d = true ∧ goodbList ds = true := by
  rw [goodbList]
  simp [Bool.and_eq_true]

theorem totalFileSizeList_append (l1 l2 : List DirTree) :
    totalFileSizeList (l1 ++ l2) = totalFileSizeList l1 + totalFileSizeList l2 := by
  induction l1 with
  | nil =>
    rw [List.nil_append, totalFileSizeList]
    omega
  | cons d ds ih =>
    rw [List.cons_append, totalFileSizeList_cons, totalFileSizeList_cons, ih]
    omega

theorem goodbList_append (l1 l2 : List DirTree) (h1 : goodbList l1 = true)
    (h2 : goodbList l2 = true) : goodbList (l1 ++ l2) = true := by
  induction l1 with
  | nil => simpa using h2
  | cons d ds ih =>
    rw [List.cons_append, goodbList_cons]
    rw [goodbList_cons] at h1
    exact ⟨h1.1, ih h1.2⟩

theorem goodbList_getElem {l : List DirTree} {i : Nat} {c : DirTree}
    (h : goodbList l = true) (hi : l[i]? = some c) : goodb c = true := by
  induction l generalizing i with
  | nil => simp at hi
  | cons d ds ih =>
    rw [goodbList_cons] at h
    cases i with
    | zero =>
      simp only [List.getElem?_cons_zero, Option.some.injEq] at hi
      subst hi
      exact h.1
    | succ n =>
      simp only [List.getElem?_cons_succ] at hi
      exact ih h.2 hi

theorem totalFileSizeList_set {l : List DirTree} {i : Nat} {c : DirTree} (x : DirTree)
    (h : l[i]? = some c) :
    totalFileSizeList (l.set i x)
      = totalFileSizeList l + (totalFileSize x - totalFileSize c) := by
  induction l generalizing i with
  | nil => simp at h
  | cons d ds ih =>
    cases i with
    | zero =>
      simp only [List.getElem?_cons_zero, Option.some.injEq] at h
      subst h
      rw [List.set_cons_zero, totalFileSizeList_cons, totalFileSizeList_cons]
      omega
    | succ n =>
      simp only [List.getElem?_cons_succ] at h
      rw [List.set_cons_succ, totalFileSizeList_cons, totalFileSizeList_cons, ih h]
      omega

theorem goodbList_set {l : List DirTree} {i : Nat} {c : DirTree} {x : DirTree}
    (h : goodbList l = true) (hi : l[i]? = some c) (hx : goodb x = true) :
    goodbList (l.set i x) = true := by
  induction l generalizing i with
  | nil => simp at hi
  | cons d ds ih =>
    rw [goodbList_cons] at h
    cases i with
    | zero =>
      rw [List.set_cons_zero, goodbList_cons]
      exact ⟨hx, h.2⟩
    | succ n =>
      simp only [List.getElem?_cons_succ] at hi
      rw [List.set_cons_succ, goodbList_cons]
      exact ⟨h.1, ih h.2 hi⟩

theorem goodb_getAt? :
    ∀ (p : List Nat) (t n : DirTree), goodb t = true → getAt? t p = some n →
      goodb n = true := by
  intro p
  induction p with
  | nil =>
    intro t n ht hn
    simp only [getAt?, Option.some.injEq] at hn
    subst hn
    exact ht
  | cons i rest ih =>
    rintro ⟨sz, fs, subs⟩ n ht hn
    simp only [getAt?] at hn
    cases hc : subs[i]? with
    | none => rw [hc] at hn; simp at hn
    | some c =>
      rw [hc] at hn
      have hgl := ((goodb_node sz fs subs).mp ht).2
      exact ih c n (goodbList_getElem hgl hc) hn

theorem findFile_removeFirstFile {fs : List CFile} {fid : Nat} {g : CFile}
    (h : findFile fs fid = some g) :
    ((removeFirstFile fs fid).map CFile.fsize).sum = (fs.map CFile.fsize).sum - g.fsize := by
  induction fs with
  | nil => simp [findFile] at h
  | cons x xs ih =>
    rw [findFile] at h
    by_cases hx : x.fid = fid
    · rw [if_pos hx] at h
      injection h with h
      subst h
      rw [removeFirstFile, if_pos hx]
      simp
    · rw [if_neg hx] at h
      rw [removeFirstFile, if_neg hx]
      simp only [List.map_cons, List.sum_cons, ih h]
      omega

theorem findFile_setFileSize {fs : List CFile} {fid : Nat} {g : CFile} (ns : Int)
    (h : findFile fs fid = some g) :
    ((setFileSize fs fid ns).map CFile.fsize).sum
      = (fs.map CFile.fsize).sum - g.fsize + ns := by
  induction fs with
  | nil => simp [findFile] at h
  | cons x xs ih =>
    rw [findFile] at h
    by_cases hx : x.fid = fid
    · rw [if_pos hx] at h
      injection h with h
      subst h
      rw [setFileSize, if_pos hx]
      simp
      omega
    · rw [if_neg hx] at h
      rw [setFileSize, if_neg hx]
      simp only [List.map_cons, List.sum_cons, ih h]
      omega

end FMCache

namespace FMCache

/-- `Directory::addFile`'s insertion path preserves the aggregation invariant
and raises the total by the file's size. -/
theorem insertFileAt?_spec :
    ∀ (p : List Nat) (t : DirTree) (f : CFile) (t' : DirTree),
      insertFileAt? t p f = some t' → goodb t = true →
      goodb t' = true ∧ totalFileSize t' = totalFileSize t + f.fsize := by
  intro p
  induction p with
  | nil =>
    rintro ⟨sz, fs, subs⟩ f t' hins ht
    simp only [insertFileAt?, Option.some.injEq] at hins
    subst hins
    obtain ⟨hsz, hgl⟩ := (goodb_node sz fs subs).mp ht
    constructor
    · rw [goodb_node]
      refine ⟨?_, hgl⟩
      simp only [List.map_append, List.sum_append]
      simp
      omega
    · rw [totalFileSize_node, totalFileSize_node]
      simp only [List.map_append, List.sum_append]
      simp
      omega
  | cons i rest ih =>
    rintro ⟨sz, fs, subs⟩ f t' hins ht
    simp only [insertFileAt?] at hins
    cases hc : subs[i]? with
    | none => simp only [hc] at hins; simp at hins
    | some c =>
      simp only [hc] at hins
      cases hrec : insertFileAt? c rest f with
      | none => simp only [hrec] at hins; simp at hins
      | some c' =>
        simp only [hrec, Option.map_some', Option.some.injEq] at hins
        subst hins
        obtain ⟨hsz, hgl⟩ := (goodb_node sz fs subs).mp ht
        obtain ⟨hg', htot'⟩ := ih c f c' hrec (goodbList_getElem hgl hc)
        have hls := totalFileSizeList_set c' hc
        constructor
        · rw [goodb_node]
          exact ⟨by omega, goodbList_set hgl hc hg'⟩
        · rw [totalFileSize_node, totalFileSize_node, hls]
          omega

/-- `Directory::addFile` (duplicate check included) preserves the aggregation
invariant. -/
theorem addFileOp_good (t : DirTree) (p : List Nat) (f : CFile)
    (ht : goodb t = true) : goodb (addFileOp t p f) = true := by
  unfold addFileOp
  cases hg : getAt? t p with
  | none => exact ht
  | some n =>
    rcases n with ⟨sz, fs, subs⟩
    dsimp only
    by_cases hf : hasFile fs f.fid = true
    · rw [if_pos hf]
      exact ht
    · rw [if_neg hf]
      cases hins : insertFileAt? t p f with
      | none => exact ht
      | some t' =>
        show goodb t' = true
        exact (insertFileAt?_spec p t f t' hins ht).1

/-- `Directory::fileDeleted` preserves the aggregation invariant when the
deleted file is one of the directory's files, and lowers the total by its
size. -/
theorem fileDeletedAt?_spec :
    ∀ (p : List Nat) (t : DirTree) (f : CFile) (t' : DirTree),
      fileDeletedAt? t p f = some t' → goodb t = true →
      (∃ sz fs subs, getAt? t p = some (.node sz fs subs) ∧ findFile fs f.fid = some f) →
      goodb t' = true ∧ totalFileSize t' = totalFileSize t - f.fsize := by
  intro p
  induction p with
  | nil =>
    rintro ⟨sz, fs, subs⟩ f t' hdel ht ⟨sz', fs', subs', hget, hfind⟩
    simp only [getAt?, Option.some.injEq, DirTree.node.injEq] at hget
    obtain ⟨h1, h2, h3⟩ := hget
    subst h1; subst h2; subst h3
    simp only [fileDeletedAt?, Option.some.injEq] at hdel
    subst hdel
    obtain ⟨hsz, hgl⟩ := (goodb_node sz fs subs).mp ht
    have hrem := findFile_removeFirstFile hfind
    constructor
    · rw [goodb_node]
      exact ⟨by omega, hgl⟩
    · rw [totalFileSize_node, totalFileSize_node, hrem]
      omega
  | cons i rest ih =>
    rintro ⟨sz, fs, subs⟩ f t' hdel ht ⟨sz', fs', subs', hget, hfind⟩
    simp only [fileDeletedAt?] at hdel
    simp only [getAt?] at hget
    cases hc : subs[i]? with
    | none => simp only [hc] at hdel; simp at hdel
    | some c =>
      simp only [hc] at hdel hget
      cases hrec : fileDeletedAt? c rest f with
      | none => simp only [hrec] at hdel; simp at hdel
      | some c' =>
        simp only [hrec, Option.map_some', Option.some.injEq] at hdel
        subst hdel
        obtain ⟨hsz, hgl⟩ := (goodb_node sz fs subs).mp ht
        obtain ⟨hg', htot'⟩ := ih c f c' hrec (goodbList_getElem hgl hc)
          ⟨sz', fs', subs', hget, hfind⟩
        have hls := totalFileSizeList_set c' hc
        constructor
        · rw [goodb_node]
          exact ⟨by omega, goodbList_set hgl hc hg'⟩
        · rw [totalFileSize_node, totalFileSize_node, hls]
          omega

/-- `Directory::fileSizeChanged` preserves the aggregation invariant when the
resized file is one of the directory's files with old size `os`. -/
theorem fileSizeChangedAt?_spec :
    ∀ (p : List Nat) (t : DirTree) (fid : Nat) (os ns : Int) (t' : DirTree),
      fileSizeChangedAt? t p fid os ns = some t' → goodb t = true →
      (∃ sz fs subs g, getAt? t p = some (.node sz fs subs)
          ∧ findFile fs fid = some g ∧ g.fsize = os) →
      goodb t' = true ∧ totalFileSize t' = totalFileSize t + (ns - os) := by
  intro p
  induction p with
  | nil =>
    rintro ⟨sz, fs, subs⟩ fid os ns t' hch ht ⟨sz', fs', subs', g, hget, hfind, hos⟩
    simp only [getAt?, Option.some.injEq, DirTree.node.injEq] at hget
    obtain ⟨h1, h2, h3⟩ := hget
    subst h1; subst h2; subst h3
    simp only [fileSizeChangedAt?, Option.some.injEq] at hch
    subst hch
    obtain ⟨hsz, hgl⟩ := (goodb_node sz fs subs).mp ht
    have hset := findFile_setFileSize ns hfind
    constructor
    · rw [goodb_node]
      exact ⟨by omega, hgl⟩
    · rw [totalFileSize_node, totalFileSize_node, hset]
      omega
  | cons i rest ih =>
    rintro ⟨sz, fs, subs⟩ fid os ns t' hch ht ⟨sz', fs', subs', g, hget, hfind, hos⟩
    simp only [fileSizeChangedAt?] at hch
    simp only [getAt?] at hget
    cases hc : subs[i]? with
    | none => simp only [hc] at hch; simp at hch
    | some c =>
      simp only [hc] at hch hget
      cases hrec : fileSizeChangedAt? c rest fid os ns with
      | none => simp only [hrec] at hch; simp at hch
      | some c' =>
        simp only [hrec, Option.map_some', Option.some.injEq] at hch
        subst hch
        obtain ⟨hsz, hgl⟩ := (goodb_node sz fs subs).mp ht
        obtain ⟨hg', htot'⟩ := ih c fid os ns c' hrec (goodbList_getElem hgl hc)
          ⟨sz', fs', subs', g, hget, hfind, hos⟩
        have hls := totalFileSizeList_set c' hc
        constructor
        · rw [goodb_node]
          exact ⟨by omega, goodbList_set hgl hc hg'⟩
        · rw [totalFileSize_node, totalFileSize_node, hls]
          omega

end FMCache

namespace FMCache

/-- Emptying the stolen directory and subtracting the moved total along its
chain preserves the aggregation invariant. -/
theorem stealClearAt?_spec :
    ∀ (p : List Nat) (t : DirTree) (m : Int) (t1 : DirTree),
      stealClearAt? t p m = some t1 → goodb t = true →
      (∃ sz sfs ssubs, getAt? t p = some (.node sz sfs ssubs)
          ∧ m = (sfs.map CFile.fsize).sum + totalFileSizeList ssubs) →
      goodb t1 = true ∧ totalFileSize t1 = totalFileSize t - m := by
  intro p
  induction p with
  | nil =>
    rintro ⟨sz, fs, subs⟩ m t1 hclr ht ⟨sz', sfs, ssubs, hget, hm⟩
    simp only [getAt?, Option.some.injEq, DirTree.node.injEq] at hget
    obtain ⟨h1, h2, h3⟩ := hget
    subst h1; subst h2; subst h3
    simp only [stealClearAt?, Option.some.injEq] at hclr
    subst hclr
    obtain ⟨hsz, hgl⟩ := (goodb_node sz fs subs).mp ht
    constructor
    · rw [goodb_node]
      refine ⟨?_, by rw [goodbList]⟩
      rw [totalFileSizeList]
      simp
      omega
    · rw [totalFileSize_node, totalFileSize_node, totalFileSizeList]
      simp
      omega
  | cons i rest ih =>
    rintro ⟨sz, fs, subs⟩ m t1 hclr ht ⟨sz', sfs, ssubs, hget, hm⟩
    simp only [stealClearAt?] at hclr
    simp only [getAt?] at hget
    cases hc : subs[i]? with
    | none => simp only [hc] at hclr; simp at hclr
    | some c =>
      simp only [hc] at hclr hget
      cases hrec : stealClearAt? c rest m with
      | none => simp only [hrec] at hclr; simp at hclr
      | some c' =>
        simp only [hrec, Option.map_some', Option.some.injEq] at hclr
        subst hclr
        obtain ⟨hsz, hgl⟩ := (goodb_node sz fs subs).mp ht
        obtain ⟨hg', htot'⟩ := ih c m c' hrec (goodbList_getElem hgl hc)
          ⟨sz', sfs, ssubs, hget, hm⟩
        have hls := totalFileSizeList_set c' hc
        constructor
        · rw [goodb_node]
          exact ⟨by omega, goodbList_set hgl hc hg'⟩
        · rw [totalFileSize_node, totalFileSize_node, hls]
          omega

/-- Appending the stolen content at the destination and adding the moved total
along its chain preserves the aggregation invariant. -/
theorem stealAppendAt?_spec :
    ∀ (p : List Nat) (t : DirTree) (mfs : List CFile) (msubs : List DirTree) (m : Int)
      (t2 : DirTree),
      stealAppendAt? t p mfs msubs m = some t2 → goodb t = true →
      goodbList msubs = true →
      m = (mfs.map CFile.fsize).sum + totalFileSizeList msubs →
      goodb t2 = true ∧ totalFileSize t2 = totalFileSize t + m := by
  intro p
  induction p with
  | nil =>
    rintro ⟨sz, fs, subs⟩ mfs msubs m t2 happ ht hgm hm
    simp only [stealAppendAt?, Option.some.injEq] at happ
    subst happ
    obtain ⟨hsz, hgl⟩ := (goodb_node sz fs subs).mp ht
    have htl := totalFileSizeList_append subs msubs
    constructor
    · rw [goodb_node]
      refine ⟨?_, goodbList_append subs msubs hgl hgm⟩
      simp only [List.map_append, List.sum_append, htl]
      omega
    · rw [totalFileSize_node, totalFileSize_node, htl]
      simp only [List.map_append, List.sum_append]
      omega
  | cons i rest ih =>
    rintro ⟨sz, fs, subs⟩ mfs msubs m t2 happ ht hgm hm
    simp only [stealAppendAt?] at happ
    cases hc : subs[i]? with
    | none => simp only [hc] at happ; simp at happ
    | some c =>
      simp only [hc] at happ
      cases hrec : stealAppendAt? c rest mfs msubs m with
      | none => simp only [hrec] at happ; simp at happ
      | some c' =>
        simp only [hrec, Option.map_some', Option.some.injEq] at happ
        subst happ
        obtain ⟨hsz, hgl⟩ := (goodb_node sz fs subs).mp ht
        obtain ⟨hg', htot'⟩ := ih c mfs msubs m c' hrec (goodbList_getElem hgl hc) hgm hm
        have hls := totalFileSizeList_set c' hc
        constructor
        · rw [goodb_node]
          exact ⟨by omega, goodbList_set hgl hc hg'⟩
        · rw [totalFileSize_node, totalFileSize_node, hls]
          omega

/-- `Directory::stealContent` preserves the aggregation invariant and the grand
total: the moved content's size leaves the source chain and arrives on the
destination chain. -/
theorem stealContentOp?_spec (t : DirTree) (dp sp : List Nat) (t' : DirTree)
    (h : stealContentOp? t dp sp = some t') (ht : goodb t = true) :
    goodb t' = true ∧ totalFileSize t' = totalFileSize t := by
  unfold stealContentOp? at h
  by_cases hps : dp = sp
  · rw [if_pos hps] at h
    simp at h
  · rw [if_neg hps] at h
    cases hg : getAt? t sp with
    | none => simp only [hg] at h; simp at h
    | some n =>
      rcases n with ⟨ssz, sfs, ssubs⟩
      simp only [hg] at h
      cases hclr : stealClearAt? t sp ((sfs.map CFile.fsize).sum + totalFileSizeList ssubs) with
      | none => simp only [hclr] at h; simp at h
      | some t1 =>
        simp only [hclr] at h
        have hgn := goodb_getAt? sp t _ ht hg
        have hgl : goodbList ssubs = true := ((goodb_node ssz sfs ssubs).mp hgn).2
        obtain ⟨hg1, htot1⟩ := stealClearAt?_spec sp t _ t1 hclr ht
          ⟨ssz, sfs, ssubs, hg, rfl⟩
        obtain ⟨hg2, htot2⟩ := stealAppendAt?_spec dp t1 sfs ssubs _ t' h hg1 hgl rfl
        exact ⟨hg2, by omega⟩

/-- C9: the file-manager cache keeps directory sizes aggregated.  Every
operation — adding a file (`addFile`), removing one (`fileDeleted`), resizing
one (`fileSizeChanged`), or moving content between directories
(`stealContent`, with `File::changeDirectory` delegating the per-file size
transfer) — adjusts the containing directory and every ancestor along the
path by the operation's delta, so each operation preserves the invariant that
every directory's cached size equals the sum of the sizes of the files it
transitively contains; `stealContent` moreover leaves the grand total
unchanged, moving exactly the stolen content's total from the source chain to
the destination chain. -/
theorem C9_directory_size_invariant (t td tc t' : DirTree) (p dp sp : List Nat)
    (f : CFile) (fid : Nat) (os ns : Int) :
    (goodb t = true → goodb (addFileOp t p f) = true)
  ∧ (goodb t = true → fileDeletedAt? t p f = some td →
      (∃ sz fs subs, getAt? t p = some (.node sz fs subs) ∧ findFile fs f.fid = some f) →
      goodb td = true ∧ totalFileSize td = totalFileSize t - f.fsize)
  ∧ (goodb t = true → fileSizeChangedAt? t p fid os ns = some tc →
      (∃ sz fs subs g, getAt? t p = some (.node sz fs subs)
          ∧ findFile fs fid = some g ∧ g.fsize = os) →
      goodb tc = true ∧ totalFileSize tc = totalFileSize t + (ns - os))
  ∧ (goodb t = true → stealContentOp? t dp sp = some t' →
      goodb t' = true ∧ totalFileSize t' = totalFileSize t) := by
  refine ⟨fun ht => addFileOp_good t p f ht, ?_, ?_, ?_⟩
  · intro ht hdel hex
    exact fileDeletedAt?_spec p t f td hdel ht hex
  · intro ht hch hex
    exact fileSizeChangedAt?_spec p t fid os ns tc hch ht hex
  · intro ht hsteal
    exact stealContentOp?_spec t dp sp t' hsteal ht

end FMCache

namespace FMCache

theorem totalFileSizeList_nil : totalFileSizeList [] = 0 := by
  rw [totalFileSizeList]

theorem goodbList_nil : goodbList [] = true := by
  rw [goodbList]

/-- Witness for C9: a two-level cache with one file at each level; add, delete,
resize and steal each preserve the invariant at this concrete tree. -/
theorem C9_directory_size_invariant_witness :
    goodb (addFileOp (DirTree.node 3 [⟨1, 1⟩] [DirTree.node 2 [⟨2, 2⟩] []]) [0] ⟨2, 2⟩) = true
  ∧ goodb (DirTree.node 1 [⟨1, 1⟩] [DirTree.node 0 [] []]) = true
  ∧ goodb (DirTree.node 11 [⟨1, 1⟩] [DirTree.node 10 [⟨2, 10⟩] []]) = true
  ∧ goodb (DirTree.node 3 [⟨1, 1⟩, ⟨2, 2⟩] [DirTree.node 0 [] []]) = true := by
  have hgood : goodb (DirTree.node 3 [⟨1, 1⟩] [DirTree.node 2 [⟨2, 2⟩] []]) = true := by
    rw [goodb_node]
    refine ⟨?_, ?_⟩
    · rw [totalFileSizeList_cons, totalFileSize_node, totalFileSizeList_nil]
      simp
    · rw [goodbList_cons]
      refine ⟨?_, goodbList_nil⟩
      rw [goodb_node]
      refine ⟨?_, goodbList_nil⟩
      rw [totalFileSizeList_nil]
      simp
  have h := C9_directory_size_invariant
    (DirTree.node 3 [⟨1, 1⟩] [DirTree.node 2 [⟨2, 2⟩] []])
    (DirTree.node 1 [⟨1, 1⟩] [DirTree.node 0 [] []])
    (DirTree.node 11 [⟨1, 1⟩] [DirTree.node 10 [⟨2, 10⟩] []])
    (DirTree.node 3 [⟨1, 1⟩, ⟨2, 2⟩] [DirTree.node 0 [] []])
    [0] [] [0] ⟨2, 2⟩ 2 2 10
  refine ⟨h.1 hgood, ?_, ?_, ?_⟩
  · exact (h.2.1 hgood (by rfl) ⟨2, [⟨2, 2⟩], [], rfl, rfl⟩).1
  · exact (h.2.2.1 hgood (by rfl) ⟨2, [⟨2, 2⟩], [], ⟨2, 2⟩, rfl, rfl, rfl⟩).1
  · refine (h.2.2.2 hgood ?_).1
    rw [stealContentOp?]
    rw [if_neg (by simp)]
    have hget : getAt? (DirTree.node 3 [⟨1, 1⟩] [DirTree.node 2 [⟨2, 2⟩] []]) [0]
        = some (DirTree.node 2 [⟨2, 2⟩] []) := rfl
    rw [hget]
    dsimp only
    have hm : (([⟨2, 2⟩] : List CFile).map CFile.fsize).sum + totalFileSizeList []
        = (2 : Int) := by
      rw [totalFileSizeList_nil]
      simp
    rw [hm]
    have hclr : stealClearAt? (DirTree.node 3 [⟨1, 1⟩] [DirTree.node 2 [⟨2, 2⟩] []]) [0] 2
        = some (DirTree.node 1 [⟨1, 1⟩] [DirTree.node 0 [] []]) := rfl
    rw [hclr]
    rfl

end FMCache
